import Mathlib

/-!
A shallow embedding of the loadum repository's core:
the Event/Value data model (src/base/src/value.rs, src/base/src/event.rs),
the JSON dumper state machine (src/json/src/json_dumper.rs) and the YAML
tokenizer (src/yaml/src/token.rs), together with theorems settling the
frozen claims about the natural-language specification.

Modelling conventions:
* Rust `String` / `LoadumString` (EcoString) is modelled as `List Char`.
* Rust panics (the `assert_state!` macro, `Vec::last().unwrap()` on an
  empty stack, `unscanny::Scanner::expect` on a failed match) are
  modelled as `Option.none`; a successful call returning `Ok(())` is
  `some`.  The sink is an in-memory buffer, so `write_all` never fails
  and the `LoadumResult` error path is never taken by this code.
* Every byte chunk passed to a single `write_all` call is recorded as
  one element of a write trace, tagged with the length of the dumper's
  state stack at the moment of the write.  Concatenating the chunks
  gives the byte stream; the tags let theorems count the separators a
  particular container frame emitted.
* `f64` is modelled by its canonical decimal rendering (the string that
  Rust's `Display` would produce), since no claim depends on float
  arithmetic, only on the rendered text.
-/

namespace Loadum

/-- `f64` modelled by its canonical decimal rendering (Rust `Display`).
No claim depends on float arithmetic, only on the emitted text of
`i.to_string()` in `JsonDumper::emit_value`. -/
structure F64 where
  repr : List Char
deriving DecidableEq

/-- `Value` from src/base/src/value.rs: Null | Boolean(bool) |
Number(f64) | String(LoadumString). -/
inductive Value where
  | null
  | boolean (b : Bool)
  | number (f : F64)
  | string (s : List Char)
deriving DecidableEq

/-- `Event` from src/base/src/event.rs. -/
inductive Event where
  | DocumentStart
  | DocumentEnd
  | MapStart
  | MapEnd
  | ListStart
  | ListEnd
  | MapKey (v : Value)
  | Literal (v : Value)
deriving DecidableEq

/-- `DumperState` from src/json/src/json_dumper.rs lines 15-24. -/
inductive DumperState where
  | Initial
  | WantMapping
  | MapInitial
  | MapHasKey
  | MapHasValue
  | ListInitial
  | ListHasValue
deriving DecidableEq

/-- The `JsonDumper` struct (src/json/src/json_dumper.rs lines 8-13),
minus the sink (writes are returned as traces) and the constant
`indentation` field (always a single tab, line 31).  The `state` list
has the TOP of the Rust `Vec` (its `last()`) at the HEAD. -/
structure JsonDumper where
  indentation_level : Nat
  state : List DumperState
deriving DecidableEq

/-- One chunk handed to one `write_all` call, tagged with the dumper's
stack length at the time of the write. -/
abbrev Write := Nat × List Char

/-- `JsonDumper::new` (lines 27-34): level 0, stack `vec![Initial]`. -/
def JsonDumper.new : JsonDumper :=
  { indentation_level := 0, state := [DumperState.Initial] }

/-- The comma-newline separator chunk text written at line 90. -/
def sepText : List Char := [',', '\n']

/-- `JsonDumper::indent` (lines 36-41): one `write_all("\t")` per
indentation level. -/
def JsonDumper.indent (d : JsonDumper) : List Write :=
  List.replicate d.indentation_level (d.state.length, ['\t'])

/-- The scan of `escape_string` (lines 202-211): `must_escape` becomes
true iff some character is in `'\u{0000}'..='\u{001f}' | '"' | '\\'`. -/
def mustEscapeChar (c : Char) : Bool :=
  (c.toNat ≤ 0x1f) || c == '"' || c == '\\'

/-- Four lowercase hex digits, the result of `format!("{:04x}", n)` for
`n < 0x10000` (always the case at line 234, where `n ≤ 0x1f`). -/
def hex4 (n : Nat) : List Char :=
  [Nat.digitChar (n / 4096 % 16), Nat.digitChar (n / 256 % 16),
   Nat.digitChar (n / 16 % 16), Nat.digitChar (n % 16)]

/-- What the escape loop (lines 216-238) pushes for one character, with
the match arms in source order: `'"' | '\\'`, then `'\t'`, `'\n'`,
`'\r'`, then the remaining control range, then the catch-all. -/
def escFragment (c : Char) : List Char :=
  if c = '"' ∨ c = '\\' then ['\\', c]
  else if c = '\t' then ['\\', 't']
  else if c = '\n' then ['\\', 'n']
  else if c = '\r' then ['\\', 'r']
  else if c.toNat ≤ 0x1f then '\\' :: 'u' :: hex4 c.toNat
  else [c]

/-- `escape_string` (lines 201-240): fast path returns the input
unchanged when no character needs escaping; otherwise the per-character
fragments are concatenated in order. -/
def escape_string (s : List Char) : List Char :=
  if s.any mustEscapeChar then s.flatMap escFragment else s

/-- `JsonDumper::emit_value` (lines 43-62).  Strings are three
`write_all` calls (quote, escaped body, quote); the other scalars one. -/
def JsonDumper.emit_value (d : JsonDumper) (v : Value) : List Write :=
  match v with
  | Value.string s =>
      [(d.state.length, ['"']), (d.state.length, escape_string s),
       (d.state.length, ['"'])]
  | Value.number f => [(d.state.length, f.repr)]
  | Value.boolean b =>
      [(d.state.length, if b then ['t', 'r', 'u', 'e'] else ['f', 'a', 'l', 's', 'e'])]
  | Value.null => [(d.state.length, ['n', 'u', 'l', 'l'])]

/-- `JsonDumper::emit_comma_if_needed` (lines 64-96).  `none` models the
`unwrap()` on an empty stack and the `panic!` catch-all arm (reached
only for `Initial`).  The comma is written before the indentation. -/
def JsonDumper.emit_comma_if_needed (d : JsonDumper) :
    Option (JsonDumper × List Write) :=
  match d.state with
  | [] => none
  | top :: rest =>
    match top with
    | DumperState.MapInitial => some (d, [])
    | DumperState.MapHasKey =>
        some ({ d with state := DumperState.MapHasValue :: rest }, [])
    | DumperState.MapHasValue => some (d, [(d.state.length, sepText)])
    | DumperState.ListInitial =>
        some ({ d with state := DumperState.ListHasValue :: rest }, d.indent)
    | DumperState.ListHasValue =>
        some (d, (d.state.length, sepText) :: d.indent)
    | DumperState.WantMapping => some (d, [])
    | DumperState.Initial => none

/-- `JsonDumper::emit_indent_if_necessary` (lines 98-112): a newline
plus indentation iff the current top frame is `ListHasValue` or
`MapHasValue`; `none` models the `unwrap()` on an empty stack. -/
def JsonDumper.emit_indent_if_necessary (d : JsonDumper) :
    Option (List Write) :=
  match d.state with
  | [] => none
  | top :: _ =>
    if top = DumperState.ListHasValue ∨ top = DumperState.MapHasValue then
      some ((d.state.length, ['\n']) :: d.indent)
    else
      some []

/-- `JsonDumper::emit` (lines 131-198).  `none` models a failed
`assert_state!` (a panic).  Braces are written as `\x7b` / `\x7d`. -/
def JsonDumper.emit (d : JsonDumper) (e : Event) :
    Option (JsonDumper × List Write) :=
  match e with
  | Event.DocumentStart =>
    match d.state with
    | DumperState.Initial :: rest =>
        some ({ d with state := DumperState.WantMapping :: DumperState.Initial :: rest }, [])
    | _ => none
  | Event.DocumentEnd =>
    -- `self.state.pop()` then `assert_state!(self, Initial)` on what remains.
    match d.state with
    | _ :: DumperState.Initial :: rest =>
        some ({ d with state := DumperState.Initial :: rest }, [])
    | _ => none
  | Event.MapStart =>
    match d.state with
    | top :: _ =>
      if top = DumperState.WantMapping ∨ top = DumperState.MapHasKey ∨
         top = DumperState.ListInitial ∨ top = DumperState.ListHasValue then
        match d.emit_comma_if_needed with
        | none => none
        | some (d1, w1) =>
          let d2 : JsonDumper := { d1 with state := DumperState.MapInitial :: d1.state }
          some ({ d2 with indentation_level := d2.indentation_level + 1 },
                w1 ++ [(d2.state.length, ['\x7b', '\n'])])
      else none
    | [] => none
  | Event.MapEnd =>
    match d.state with
    | top :: rest =>
      if top = DumperState.MapInitial ∨ top = DumperState.MapHasValue then
        let d1 : JsonDumper :=
          { indentation_level := d.indentation_level - 1, state := rest }
        some (d1, (d1.state.length, ['\n']) :: (d1.indent ++ [(d1.state.length, ['\x7d'])]))
      else none
    | [] => none
  | Event.MapKey v =>
    match d.state with
    | top :: _ =>
      if top = DumperState.MapInitial ∨ top = DumperState.MapHasValue then
        match d.emit_comma_if_needed with
        | none => none
        | some (d1, w1) =>
          match d1.state with
          | [] => none
          | _ :: rest1 =>
            let d2 : JsonDumper := { d1 with state := DumperState.MapHasKey :: rest1 }
            some (d2, w1 ++ d2.indent ++ d2.emit_value v ++ [(d2.state.length, [':', ' '])])
      else none
    | [] => none
  | Event.ListStart =>
    match d.state with
    | top :: _ =>
      if top = DumperState.MapHasKey ∨ top = DumperState.ListInitial ∨
         top = DumperState.ListHasValue then
        match d.emit_comma_if_needed with
        | none => none
        | some (d1, w1) =>
          -- write "[\n" BEFORE the push (lines 177-179), unlike MapStart.
          some ({ indentation_level := d1.indentation_level + 1,
                  state := DumperState.ListInitial :: d1.state },
                w1 ++ [(d1.state.length, ['[', '\n'])])
      else none
    | [] => none
  | Event.ListEnd =>
    match d.state with
    | top :: rest =>
      if top = DumperState.ListInitial ∨ top = DumperState.ListHasValue then
        let d1 : JsonDumper :=
          { indentation_level := d.indentation_level - 1, state := rest }
        match d1.emit_indent_if_necessary with
        | none => none
        | some w2 => some (d1, w2 ++ [(d1.state.length, [']'])])
      else none
    | [] => none
  | Event.Literal v =>
    match d.state with
    | top :: _ =>
      if top = DumperState.MapHasKey ∨ top = DumperState.ListHasValue ∨
         top = DumperState.ListInitial then
        match d.emit_comma_if_needed with
        | none => none
        | some (d1, w1) => some (d1, w1 ++ d1.emit_value v)
      else none
    | [] => none

/-- Driving loop: emit each event in order, failing if any emit traps
(mirrors the `for event in events { dumper.emit(event).unwrap() }`
pattern of the tests). -/
def runEmit (d : JsonDumper) : List Event → Option (JsonDumper × List Write)
  | [] => some (d, [])
  | e :: es =>
    match d.emit e with
    | none => none
    | some (d1, w1) =>
      match runEmit d1 es with
      | none => none
      | some (d2, w2) => some (d2, w1 ++ w2)

/-- The byte stream actually reaching the sink: chunk concatenation. -/
def renderWrites : List Write → List Char
  | [] => []
  | w :: ws => w.2 ++ renderWrites ws

/-! ## Tokenizer (src/yaml/src/token.rs on top of the `unscanny` crate)

`unscanny::Scanner` walks a string by byte offset; we model offsets as
character indices (every claim is about ASCII-range behaviour, where the
two coincide).  `Scanner::eat_until(pat)` stops *before* the first match
of `pat` (or at end of input), `Scanner::expect(pat)` consumes the
pattern if it is next and panics otherwise (modelled as `none`), and
`Scanner::eat_whitespace` consumes leading `char::is_whitespace`
characters (Unicode `White_Space`). -/

/-- `Token` from src/yaml/src/token.rs lines 3-10. -/
inductive Token where
  | Initial
  | StringDoubleQuoted
  | StringSingleQuoted
  | StringPlain
  | EOF
deriving DecidableEq

/-- The `Tokenizer` struct (lines 12-18): an `unscanny` scanner (source
plus cursor) and the `start`/`end`/`current` span bookkeeping. -/
structure Tokenizer where
  source : List Char
  cursor : Nat
  start : Nat
  stop : Nat
  current : Token
deriving DecidableEq

/-- `Tokenizer::new` (lines 33-40). -/
def Tokenizer.new (source : List Char) : Tokenizer :=
  { source := source, cursor := 0, start := 0, stop := 0,
    current := Token.Initial }

/-- Rust `char::is_whitespace`: the Unicode `White_Space` property. -/
def rustIsWhitespace (c : Char) : Bool :=
  (0x9 ≤ c.val && c.val ≤ 0xd) || c.val == 0x20 || c.val == 0x85 ||
  c.val == 0xa0 || c.val == 0x1680 ||
  (0x2000 ≤ c.val && c.val ≤ 0x200a) || c.val == 0x2028 ||
  c.val == 0x2029 || c.val == 0x202f || c.val == 0x205f ||
  c.val == 0x3000

/-- Offset consumed by `Scanner::eat_whitespace` from the remaining
input. -/
def skipWs : List Char → Nat
  | [] => 0
  | c :: rest => if rustIsWhitespace c then skipWs rest + 1 else 0

/-- Offset at which `Scanner::eat_until(c)` (char pattern) stops within
the remaining input: just before the first occurrence of `c`, or at the
end when `c` never occurs. -/
def findChar (p : Char) : List Char → Nat
  | [] => 0
  | c :: rest => if c = p then 0 else findChar p rest + 1

/-- Whether `pat` is an initial segment of `rem`. -/
def matchesAt : List Char → List Char → Bool
  | [], _ => true
  | _ :: _, [] => false
  | p :: ps, c :: cs => p == c && matchesAt ps cs

/-- Offset at which `Scanner::eat_until(s)` (string pattern) stops
within the remaining input: just before the first position where `s`
matches, or at the end when it never matches. -/
def findSub (pat : List Char) : List Char → Nat
  | [] => 0
  | c :: rest => if matchesAt pat (c :: rest) then 0 else findSub pat rest + 1

/-- `Tokenizer::advance` (lines 48-73).  `none` models the panic of
`Scanner::expect` when the closing quote is missing. -/
def Tokenizer.advance (t : Tokenizer) : Option Tokenizer :=
  let cur1 := t.cursor + skipWs (t.source.drop t.cursor)
  match (t.source.drop cur1).head? with
  | none =>
      -- EOF branch (lines 51-54): `start` is set, `end` is NOT updated.
      some { t with cursor := cur1, start := cur1, current := Token.EOF }
  | some c =>
    let cur2 := cur1 + 1
    if c = '"' then
      let cur3 := cur2 + findChar '"' (t.source.drop cur2)
      match (t.source.drop cur3).head? with
      | some c2 =>
        if c2 = '"' then
          some { t with current := Token.StringDoubleQuoted,
                        cursor := cur3 + 1, start := cur1, stop := cur3 + 1 }
        else none
      | none => none
    else if c = '\'' then
      let cur3 := cur2 + findChar '\'' (t.source.drop cur2)
      match (t.source.drop cur3).head? with
      | some c2 =>
        if c2 = '\'' then
          some { t with current := Token.StringSingleQuoted,
                        cursor := cur3 + 1, start := cur1, stop := cur3 + 1 }
        else none
      | none => none
    else
      let cur3 := cur2 + findSub [':', ' '] (t.source.drop cur2)
      some { t with current := Token.StringPlain,
                    cursor := cur3, start := cur1, stop := cur3 }

/-! ## Derived notions used by the theorems -/

/-- Frames that represent an open container (map or list); `Initial`
and `WantMapping` are not containers. -/
def containerFrame : DumperState → Bool
  | DumperState.MapInitial => true
  | DumperState.MapHasKey => true
  | DumperState.MapHasValue => true
  | DumperState.ListInitial => true
  | DumperState.ListHasValue => true
  | _ => false

/-- Frames of an open map. -/
def isMapFrame : DumperState → Bool
  | DumperState.MapInitial => true
  | DumperState.MapHasKey => true
  | DumperState.MapHasValue => true
  | _ => false

/-- Frames recording that the container already holds a value. -/
def hasValueFrame : DumperState → Bool
  | DumperState.MapHasValue => true
  | DumperState.ListHasValue => true
  | _ => false

/-- Shape of the container part of a reachable dumper stack, innermost
frame first: every frame is a container, every frame other than the
innermost is a has-value frame (its child was already opened), and the
outermost frame is a map frame (a list can never be the top-level value,
since `ListStart` is rejected at `WantMapping`). -/
inductive CsOk : List DumperState → Prop where
  | nil : CsOk []
  | single (f : DumperState) : isMapFrame f = true → CsOk [f]
  | cons (f g : DumperState) (t : List DumperState) :
      containerFrame f = true → hasValueFrame g = true →
      CsOk (g :: t) → CsOk (f :: g :: t)

/-- Invariant satisfied by every dumper state reachable from
`JsonDumper.new` through successful emits. -/
def dumperInv (d : JsonDumper) : Prop :=
  (d.state = [DumperState.Initial] ∧ d.indentation_level = 0) ∨
  (∃ cs, d.state = cs ++ [DumperState.WantMapping, DumperState.Initial] ∧
    d.indentation_level = cs.length ∧ CsOk cs)

/-- Number of separator chunks (`",\n"` written while the stack had
length `lvl`, i.e. written for the container frame at depth `lvl`). -/
def countSep (lvl : Nat) (ws : List Write) : Nat :=
  ws.countP (fun w => decide (w = (lvl, sepText)))

/-- The frame states from which the dumper accepts a value-producing
event for the enclosing container. -/
def receiver (f : DumperState) : Prop :=
  f = DumperState.MapHasKey ∨ f = DumperState.ListInitial ∨
  f = DumperState.ListHasValue

/-- The frame state after a complete value has been delivered to it. -/
def nextRecv : DumperState → DumperState
  | DumperState.MapHasKey => DumperState.MapHasValue
  | DumperState.ListInitial => DumperState.ListHasValue
  | f => f

/-! ## Document trees

A tree generating exactly the grammar of spec §3
(`Value ::= Literal | Map | List`); its event sequence is the general
shape of a valid event stream between `DocumentStart` and
`DocumentEnd`. -/

mutual
inductive JValue where
  | scalar (v : Value)
  | map (m : JMembers)
  | list (l : JElems)
inductive JMembers where
  | nil
  | cons (k : Value) (v : JValue) (rest : JMembers)
inductive JElems where
  | nil
  | cons (v : JValue) (rest : JElems)
end

mutual
/-- The event sequence of one value (spec §3 grammar). -/
def eventsOfVal : JValue → List Event
  | JValue.scalar v => [Event.Literal v]
  | JValue.map m => Event.MapStart :: (eventsOfMembers m ++ [Event.MapEnd])
  | JValue.list l => Event.ListStart :: (eventsOfElems l ++ [Event.ListEnd])
def eventsOfMembers : JMembers → List Event
  | JMembers.nil => []
  | JMembers.cons k v rest =>
      Event.MapKey k :: (eventsOfVal v ++ eventsOfMembers rest)
def eventsOfElems : JElems → List Event
  | JElems.nil => []
  | JElems.cons v rest => eventsOfVal v ++ eventsOfElems rest
end

/-- The rendering of a real `f64` never contains a comma, so a number
chunk can never be mistaken for a separator chunk.  (The number payload
is modelled by its rendered text, hence this well-formedness side
condition.) -/
def goodScalar : Value → Bool
  | Value.number f => !(f.repr.contains ',')
  | _ => true

mutual
def goodVal : JValue → Prop
  | JValue.scalar v => goodScalar v = true
  | JValue.map m => goodMembers m
  | JValue.list l => goodElems l
def goodMembers : JMembers → Prop
  | JMembers.nil => True
  | JMembers.cons k v rest => goodScalar k = true ∧ goodVal v ∧ goodMembers rest
def goodElems : JElems → Prop
  | JElems.nil => True
  | JElems.cons v rest => goodVal v ∧ goodElems rest
end

/-- Number of key/value siblings of a map tree. -/
def membersCount : JMembers → Nat
  | JMembers.nil => 0
  | JMembers.cons _ _ rest => membersCount rest + 1

/-- Number of element siblings of a list tree. -/
def elemsCount : JElems → Nat
  | JElems.nil => 0
  | JElems.cons _ rest => elemsCount rest + 1

/-! ## A standard JSON string-literal decoder

Modelled from the spec: "the rendered JSON string literal, when parsed
by any standards-compliant JSON parser, must yield back the original
string exactly" (spec §8).  The decoder below implements the RFC 8259
string grammar: the body runs to the first unescaped `"`, a backslash
introduces one of the two-character escapes or a `\u` escape with four
hex digits, and raw control characters are illegal. -/

def hexDigitVal (c : Char) : Option Nat :=
  if '0' ≤ c ∧ c ≤ '9' then some (c.toNat - 48)
  else if 'a' ≤ c ∧ c ≤ 'f' then some (c.toNat - 87)
  else if 'A' ≤ c ∧ c ≤ 'F' then some (c.toNat - 55)
  else none

/-- Modelled from the spec (standard JSON string decoding, RFC 8259):
decode a string-literal body up to and including the closing quote,
returning the decoded characters and the input remaining after the
closing quote. -/
def decodeBody : List Char → Option (List Char × List Char)
  | [] => none
  | c :: rest =>
    if c = '"' then some ([], rest)
    else if c = '\\' then
      match rest with
      | [] => none
      | e :: rest2 =>
        if e = '"' then (decodeBody rest2).map (fun p => ('"' :: p.1, p.2))
        else if e = '\\' then (decodeBody rest2).map (fun p => ('\\' :: p.1, p.2))
        else if e = '/' then (decodeBody rest2).map (fun p => ('/' :: p.1, p.2))
        else if e = 'b' then (decodeBody rest2).map (fun p => (Char.ofNat 0x8 :: p.1, p.2))
        else if e = 'f' then (decodeBody rest2).map (fun p => (Char.ofNat 0xc :: p.1, p.2))
        else if e = 'n' then (decodeBody rest2).map (fun p => ('\n' :: p.1, p.2))
        else if e = 'r' then (decodeBody rest2).map (fun p => ('\r' :: p.1, p.2))
        else if e = 't' then (decodeBody rest2).map (fun p => ('\t' :: p.1, p.2))
        else if e = 'u' then
          match rest2 with
          | h1 :: h2 :: h3 :: h4 :: rest3 =>
            match hexDigitVal h1, hexDigitVal h2, hexDigitVal h3, hexDigitVal h4 with
            | some a, some b, some c3, some d4 =>
              (decodeBody rest3).map
                (fun p => (Char.ofNat (a * 4096 + b * 256 + c3 * 16 + d4) :: p.1, p.2))
            | _, _, _, _ => none
          | _ => none
        else none
    else if c.toNat ≤ 0x1f then none
    else (decodeBody rest).map (fun p => (c :: p.1, p.2))
  termination_by l => l.length
  decreasing_by all_goals simp_wf <;> omega

/-- Modelled from the spec (standard JSON string decoding): a complete
string literal is an opening quote, a body, the closing quote, and
nothing after it. -/
def jsonDecodeStringLiteral (lit : List Char) : Option (List Char) :=
  match lit with
  | '"' :: body =>
    match decodeBody body with
    | some (s, []) => some s
    | _ => none
  | _ => none

/-- The byte text that `JsonDumper::emit_value` produces for
`Value::String(s)` (lines 45-50): quote, `escape_string(s)`, quote. -/
def renderStringLiteral (s : List Char) : List Char :=
  renderWrites (JsonDumper.new.emit_value (Value.string s))

/-! # Theorems -/

/-- C5 (confirmed).  Emitting exactly
`[DocumentStart, MapStart, MapEnd, DocumentEnd]` on a fresh `JsonDumper`
succeeds, and the sink receives exactly the five bytes
`{`, `\n`, `\n`, `}` — the string `"{\n\n}"` — with no trailing
newline. -/
theorem c5_empty_map_document :
    (runEmit JsonDumper.new
      [Event.DocumentStart, Event.MapStart, Event.MapEnd,
       Event.DocumentEnd]).map (fun p => renderWrites p.2) =
    some ['\x7b', '\n', '\n', '\x7d'] := by
  decide

/-- C9 (confirmed).  For a string containing none of `"`, `\`, or the
control characters `U+0000..U+001F`, `escape_string` is the identity
(the fast path returns the input unchanged), so the dumper emits the
string's bytes identically between the two surrounding quotes. -/
theorem c9_fast_path_identity (s : List Char)
    (h : ∀ c ∈ s, ¬(c.toNat ≤ 0x1f ∨ c = '"' ∨ c = '\\')) :
    escape_string s = s ∧
    ∀ d : JsonDumper, renderWrites (d.emit_value (Value.string s)) =
      '"' :: (s ++ ['"']) := by
  have hany : s.any mustEscapeChar = false := by
    rw [List.any_eq_false]
    intro c hc
    have := h c hc
    simp only [mustEscapeChar, Bool.or_eq_true, decide_eq_true_eq, beq_iff_eq,
      not_or] at this ⊢
    push_neg at this
    exact ⟨⟨by simpa using this.1, this.2.1⟩, this.2.2⟩
  have he : escape_string s = s := by
    simp [escape_string, hany]
  refine ⟨he, fun d => ?_⟩
  simp [JsonDumper.emit_value, renderWrites, he]

/-- Witness for C9 at the concrete string `hi`. -/
theorem c9_fast_path_identity_witness :
    escape_string ['h', 'i'] = ['h', 'i'] ∧
    ∀ d : JsonDumper,
      renderWrites (d.emit_value (Value.string ['h', 'i'])) =
        '"' :: (['h', 'i'] ++ ['"']) :=
  c9_fast_path_identity ['h', 'i'] (by decide)

/-- C1 (counterexample).  The claim says every value-producing first
event — `MapStart`, `ListStart`, or any `Literal` — is accepted right
after `DocumentStart`.  In fact `ListStart` (and likewise `Literal`) is
rejected by the `assert_state!` at lines 171-174, whose pattern does not
include `WantMapping`: the call traps. -/
theorem c1_counterexample :
    runEmit JsonDumper.new [Event.DocumentStart, Event.ListStart] = none := by
  decide

/-- C1 (corrected).  At `WantMapping` (right after `DocumentStart` on a
fresh dumper) only `MapStart` is accepted among the value-producing
first events; `ListStart` and `Literal(v)` for every `v` trap on the
state assertion, because the `ListStart` and `Literal` assert patterns
(lines 171-174 and 189-192) do not include `WantMapping`. -/
theorem c1_only_map_start_at_want_mapping :
    (runEmit JsonDumper.new [Event.DocumentStart, Event.MapStart]).isSome = true ∧
    runEmit JsonDumper.new [Event.DocumentStart, Event.ListStart] = none ∧
    ∀ v : Value,
      runEmit JsonDumper.new [Event.DocumentStart, Event.Literal v] = none := by
  refine ⟨by decide, by decide, fun v => ?_⟩
  simp [runEmit, JsonDumper.emit, JsonDumper.new]

/-- C2 (counterexample).  The claim says that for an empty list no
re-indentation is written before the closing `]`.  But after popping the
list frame, `emit_indent_if_necessary` inspects the PARENT frame (line
99), which is `MapHasValue` here, so the dumper writes a newline and a
tab before `]` even though the list `[DocumentStart, MapStart,
MapKey "a", ListStart, ListEnd, ...]` being closed is empty (its frame
is still `ListInitial`).  This matches the repository's own
`test_empty_sequence` expectation `{\n\t"list": [\n\n\t]\n}`. -/
theorem c2_counterexample :
    (runEmit JsonDumper.new
      [Event.DocumentStart, Event.MapStart, Event.MapKey (Value.string ['a']),
       Event.ListStart]).map Prod.fst =
      some { indentation_level := 2,
             state := [DumperState.ListInitial, DumperState.MapHasValue,
                       DumperState.WantMapping, DumperState.Initial] } ∧
    (JsonDumper.emit
      { indentation_level := 2,
        state := [DumperState.ListInitial, DumperState.MapHasValue,
                  DumperState.WantMapping, DumperState.Initial] }
      Event.ListEnd).map Prod.snd =
      some [(3, ['\n']), (3, ['\t']), (3, [']'])] := by
  decide

/-- C6 (counterexample).  The claim says a `"` preceded by a backslash
does not terminate a double-quoted span.  On the source text
`"a\"b"` (six characters), `Scanner::eat_until('"')` stops at the FIRST
quote, so the span ends at offset 4 (just past the backslash-preceded
quote), not at offset 6 as the claim predicts. -/
theorem c6_counterexample :
    ((Tokenizer.new ['"', 'a', '\\', '"', 'b', '"']).advance).map
      (fun t => (t.current, t.start, t.stop)) =
      some (Token.StringDoubleQuoted, 0, 4) ∧
    ¬(((Tokenizer.new ['"', 'a', '\\', '"', 'b', '"']).advance).map
        (fun t => t.stop) = some 6) := by
  decide

/-- C7 (counterexample).  The claim says an unclosed quote is surfaced
as a recoverable `Err` result.  On the source text `"ab` (no closing
quote) `Scanner::eat_until` runs to the end of input and
`Scanner::expect('"')` panics — an unrecoverable abort (modelled as
`none`), not an error value returned to the caller; `advance` as
written never constructs an `Err` at all. -/
theorem c7_counterexample :
    (Tokenizer.new ['"', 'a', 'b']).advance = none := by
  decide

/-- C8 (confirmed).  Once a call to `advance` has set the current
classification to `EOF`, every further call is idempotent: it succeeds
and returns the very same tokenizer state (classification still `EOF`,
cursor, span and source untouched). -/
theorem c8_eof_terminal (t t2 : Tokenizer) (h : t.advance = some t2)
    (h2 : t2.current = Token.EOF) : t2.advance = some t2 := by
  rw [Tokenizer.advance] at h
  simp only [] at h
  split at h
  case h_1 heq =>
    obtain rfl : _ = t2 := Option.some.inj h
    have hdrop : t.source.drop
        (t.cursor + skipWs (t.source.drop t.cursor)) = [] :=
      List.head?_eq_none_iff.mp heq
    unfold Tokenizer.advance
    simp [hdrop, skipWs]
  case h_2 c heq =>
    exfalso
    split_ifs at h <;>
      (try split at h) <;>
      (try split_ifs at h) <;>
      first
        | exact Option.noConfusion h
        | (obtain rfl : _ = t2 := Option.some.inj h; simp at h2)

/-- Witness for C8: the tokenizer on source `ab` reaches `EOF` on the
second call and the third call returns the same state. -/
theorem c8_eof_terminal_witness :
    ∃ t2, (match (Tokenizer.new ['a', 'b']).advance with
           | some t1 => t1.advance
           | none => none) = some t2 ∧ t2.advance = some t2 := by
  refine ⟨{ source := ['a', 'b'], cursor := 2, start := 2, stop := 2,
            current := Token.EOF }, by decide, ?_⟩
  exact c8_eof_terminal
    { source := ['a', 'b'], cursor := 2, start := 2, stop := 2,
      current := Token.StringPlain }
    { source := ['a', 'b'], cursor := 2, start := 2, stop := 2,
      current := Token.EOF } (by decide) (by decide)

/-- `Scanner::eat_until(c)` helper: when `c` does not occur, the scan
runs to the end of the remaining input. -/
theorem findChar_not_mem {p : Char} {l : List Char} (h : p ∉ l) :
    findChar p l = l.length := by
  induction l with
  | nil => rfl
  | cons c cs ih =>
    simp only [List.mem_cons, not_or] at h
    have hc : ¬(c = p) := fun hh => h.1 hh.symm
    simp [findChar, hc, ih h.2]

/-- `Scanner::eat_until(c)` helper: the scan stops exactly at the first
occurrence of `c`. -/
theorem findChar_append (p : Char) (pre post : List Char) (h : p ∉ pre) :
    findChar p (pre ++ p :: post) = pre.length := by
  induction pre with
  | nil => simp [findChar]
  | cons c cs ih =>
    simp only [List.mem_cons, not_or] at h
    have hc : ¬(c = p) := fun hh => h.1 hh.symm
    simp [findChar, hc, ih h.2]

/-- C6 (corrected).  A leading quote starts a quoted span that runs up
to and including the FIRST subsequent quote of the same kind —
regardless of any preceding backslash, since `eat_until` does no escape
processing.  `pre` is the span body (containing no closing quote), and
the resulting span covers opening quote, body, and closing quote. -/
theorem c6_span_ends_at_first_quote (t : Tokenizer) (pre post : List Char) :
    (t.source.drop (t.cursor + skipWs (t.source.drop t.cursor)) =
        '"' :: (pre ++ '"' :: post) → '"' ∉ pre →
      t.advance = some { t with
        current := Token.StringDoubleQuoted,
        start := t.cursor + skipWs (t.source.drop t.cursor),
        stop := t.cursor + skipWs (t.source.drop t.cursor) + 1 + pre.length + 1,
        cursor := t.cursor + skipWs (t.source.drop t.cursor) + 1 + pre.length + 1 }) ∧
    (t.source.drop (t.cursor + skipWs (t.source.drop t.cursor)) =
        '\'' :: (pre ++ '\'' :: post) → '\'' ∉ pre →
      t.advance = some { t with
        current := Token.StringSingleQuoted,
        start := t.cursor + skipWs (t.source.drop t.cursor),
        stop := t.cursor + skipWs (t.source.drop t.cursor) + 1 + pre.length + 1,
        cursor := t.cursor + skipWs (t.source.drop t.cursor) + 1 + pre.length + 1 }) := by
  constructor
  · intro h hpre
    have h1 : t.source.drop (t.cursor + skipWs (t.source.drop t.cursor) + 1) =
        pre ++ '"' :: post := by
      rw [← List.drop_drop, h]
      simp
    have h2 : findChar '"'
        (t.source.drop (t.cursor + skipWs (t.source.drop t.cursor) + 1)) =
        pre.length := by
      rw [h1]
      exact findChar_append _ _ _ hpre
    have h3 : t.source.drop
        (t.cursor + skipWs (t.source.drop t.cursor) + 1 + pre.length) =
        '"' :: post := by
      rw [← List.drop_drop, h1]
      exact List.drop_left pre ('"' :: post)
    rw [Tokenizer.advance]
    simp [h, h2, h3]
  · intro h hpre
    have h1 : t.source.drop (t.cursor + skipWs (t.source.drop t.cursor) + 1) =
        pre ++ '\'' :: post := by
      rw [← List.drop_drop, h]
      simp
    have h2 : findChar '\''
        (t.source.drop (t.cursor + skipWs (t.source.drop t.cursor) + 1)) =
        pre.length := by
      rw [h1]
      exact findChar_append _ _ _ hpre
    have h3 : t.source.drop
        (t.cursor + skipWs (t.source.drop t.cursor) + 1 + pre.length) =
        '\'' :: post := by
      rw [← List.drop_drop, h1]
      exact List.drop_left pre ('\'' :: post)
    rw [Tokenizer.advance]
    simp [h, h2, h3]

/-- Witness for C6-corrected on `"a"` and `'a'`. -/
theorem c6_span_ends_at_first_quote_witness :
    (Tokenizer.new ['"', 'a', '"']).advance = some
      { source := ['"', 'a', '"'], cursor := 3, start := 0, stop := 3,
        current := Token.StringDoubleQuoted } ∧
    (Tokenizer.new ['\'', 'a', '\'']).advance = some
      { source := ['\'', 'a', '\''], cursor := 3, start := 0, stop := 3,
        current := Token.StringSingleQuoted } := by
  constructor
  · have := (c6_span_ends_at_first_quote
      (Tokenizer.new ['"', 'a', '"']) ['a'] []).1 (by decide) (by decide)
    simpa using this
  · have := (c6_span_ends_at_first_quote
      (Tokenizer.new ['\'', 'a', '\'']) ['a'] []).2 (by decide) (by decide)
    simpa using this

/-- C7 (corrected).  When a quoted span has no closing quote before end
of input, `Tokenizer::advance` does not return an error value: the
`Scanner::expect` call panics — an unrecoverable abort (`none` in the
model).  The `Err` variant of `LoadumResult` is never constructed by
`advance`. -/
theorem c7_unclosed_quote_panics (t : Tokenizer) (rest : List Char) :
    (t.source.drop (t.cursor + skipWs (t.source.drop t.cursor)) =
        '"' :: rest → '"' ∉ rest → t.advance = none) ∧
    (t.source.drop (t.cursor + skipWs (t.source.drop t.cursor)) =
        '\'' :: rest → '\'' ∉ rest → t.advance = none) := by
  constructor
  · intro h hrest
    have h1 : t.source.drop (t.cursor + skipWs (t.source.drop t.cursor) + 1) =
        rest := by
      rw [← List.drop_drop, h]
      simp
    have h2 : findChar '"'
        (t.source.drop (t.cursor + skipWs (t.source.drop t.cursor) + 1)) =
        rest.length := by
      rw [h1]
      exact findChar_not_mem hrest
    have h3 : t.source.drop
        (t.cursor + skipWs (t.source.drop t.cursor) + 1 + rest.length) = [] := by
      rw [← List.drop_drop, h1]
      exact List.drop_length rest
    rw [Tokenizer.advance]
    simp [h, h2, h3]
  · intro h hrest
    have h1 : t.source.drop (t.cursor + skipWs (t.source.drop t.cursor) + 1) =
        rest := by
      rw [← List.drop_drop, h]
      simp
    have h2 : findChar '\''
        (t.source.drop (t.cursor + skipWs (t.source.drop t.cursor) + 1)) =
        rest.length := by
      rw [h1]
      exact findChar_not_mem hrest
    have h3 : t.source.drop
        (t.cursor + skipWs (t.source.drop t.cursor) + 1 + rest.length) = [] := by
      rw [← List.drop_drop, h1]
      exact List.drop_length rest
    rw [Tokenizer.advance]
    simp [h, h2, h3]

/-- Witness for C7-corrected on the unterminated inputs `"ab` and
`'ab`. -/
theorem c7_unclosed_quote_panics_witness :
    (Tokenizer.new ['"', 'a', 'b']).advance = none ∧
    (Tokenizer.new ['\'', 'a', 'b']).advance = none :=
  ⟨(c7_unclosed_quote_panics (Tokenizer.new ['"', 'a', 'b'])
      ['a', 'b']).1 (by decide) (by decide),
   (c7_unclosed_quote_panics (Tokenizer.new ['\'', 'a', 'b'])
      ['a', 'b']).2 (by decide) (by decide)⟩

/-- Decoding a hex digit produced by `{:x}` formatting recovers its
value. -/
theorem hexDigitVal_digitChar : ∀ n, n < 16 →
    hexDigitVal (Nat.digitChar n) = some n := by
  decide

/-- One escape fragment decodes back to the character it encodes, for
every character. -/
theorem decodeBody_escFragment (c : Char) (tail : List Char) :
    decodeBody (escFragment c ++ tail) =
      (decodeBody tail).map (fun p => (c :: p.1, p.2)) := by
  by_cases h1 : c = '"' ∨ c = '\\'
  · rcases h1 with rfl | rfl <;>
      (simp only [escFragment]
       rw [decodeBody.eq_def]
       simp)
  · by_cases h2 : c = '\t'
    · subst h2
      simp only [escFragment, h1, if_false, reduceIte]
      rw [decodeBody.eq_def]
      simp
    · by_cases h3 : c = '\n'
      · subst h3
        simp only [escFragment, h1, h2, if_false, reduceIte]
        rw [decodeBody.eq_def]
        simp
      · by_cases h4 : c = '\r'
        · subst h4
          simp only [escFragment, h1, h2, h3, if_false, reduceIte]
          rw [decodeBody.eq_def]
          simp
        · by_cases h5 : c.toNat ≤ 0x1f
          · have d1 : hexDigitVal (Nat.digitChar (c.toNat / 4096 % 16)) =
                some (c.toNat / 4096 % 16) :=
              hexDigitVal_digitChar _ (by omega)
            have d2 : hexDigitVal (Nat.digitChar (c.toNat / 256 % 16)) =
                some (c.toNat / 256 % 16) :=
              hexDigitVal_digitChar _ (by omega)
            have d3 : hexDigitVal (Nat.digitChar (c.toNat / 16 % 16)) =
                some (c.toNat / 16 % 16) :=
              hexDigitVal_digitChar _ (by omega)
            have d4 : hexDigitVal (Nat.digitChar (c.toNat % 16)) =
                some (c.toNat % 16) :=
              hexDigitVal_digitChar _ (by omega)
            have hch : ∀ m, m = c.toNat / 4096 % 16 * 4096 +
                c.toNat / 256 % 16 * 256 + c.toNat / 16 % 16 * 16 +
                c.toNat % 16 → Char.ofNat m = c := by
              intro m hm
              rw [show m = c.toNat by omega, Char.ofNat_toNat]
            simp only [escFragment, h1, h2, h3, h4, h5, if_false, if_true,
              ite_false, ite_true, hex4, List.cons_append, List.nil_append]
            rw [decodeBody.eq_def]
            simp [d1, d2, d3, d4, hch _ rfl]
          · push_neg at h1
            simp only [escFragment, h1.1, h1.2, h2, h3, h4, h5, if_false,
              reduceIte, List.cons_append, List.nil_append]
            rw [decodeBody.eq_def]
            simp [h1.1, h1.2, h5]

/-- The full escaped body followed by a closing quote decodes back to
the original characters with the input after the quote untouched. -/
theorem decodeBody_flatMap (s : List Char) (tail : List Char) :
    decodeBody (s.flatMap escFragment ++ '"' :: tail) = some (s, tail) := by
  induction s with
  | nil =>
    rw [List.flatMap_nil, List.nil_append, decodeBody.eq_def]
    simp
  | cons c cs ih =>
    rw [List.flatMap_cons, List.append_assoc, decodeBody_escFragment, ih]
    rfl

/-- C3 (confirmed).  For a string `s` containing at least one character
among `U+0000..U+001F`, `"` or `\`, the string literal the dumper
renders (quote, `escape_string(s)`, quote) decodes back to exactly `s`
under standard JSON string-literal unescaping; and on this path
`escape_string` is exactly the per-character table of the claim
(`"`→`\"`, `\`→`\\`, tab→`\t`, newline→`\n`, CR→`\r`, other control
characters→`\u` + 4 lowercase hex digits, all else unchanged),
concatenated over the characters of `s`. -/
theorem c3_escape_round_trip (s : List Char)
    (h : s.any mustEscapeChar = true) :
    jsonDecodeStringLiteral (renderStringLiteral s) = some s ∧
    escape_string s = s.flatMap escFragment := by
  have he : escape_string s = s.flatMap escFragment := by
    simp [escape_string, h]
  refine ⟨?_, he⟩
  have hbody : renderStringLiteral s =
      '"' :: (s.flatMap escFragment ++ '"' :: []) := by
    simp [renderStringLiteral, renderWrites, JsonDumper.emit_value, he]
  rw [hbody, jsonDecodeStringLiteral]
  simp [decodeBody_flatMap]

/-- Witness for C3 at the string `a<newline>` (which contains a control
character). -/
theorem c3_escape_round_trip_witness :
    jsonDecodeStringLiteral (renderStringLiteral ['a', '\n']) =
      some ['a', '\n'] ∧
    escape_string ['a', '\n'] = (['a', '\n'] : List Char).flatMap escFragment :=
  c3_escape_round_trip ['a', '\n'] (by decide)

/-! ## Reachable-state invariant of the dumper stack -/

theorem CsOk_head {f : DumperState} {t : List DumperState}
    (h : CsOk (f :: t)) : containerFrame f = true := by
  cases h with
  | single _ hf => cases f <;> simp_all [isMapFrame, containerFrame]
  | cons _ _ _ hc _ _ => exact hc

theorem CsOk_tail {f : DumperState} {t : List DumperState}
    (h : CsOk (f :: t)) : CsOk t := by
  cases h with
  | single => exact CsOk.nil
  | cons _ _ _ _ _ hrest => exact hrest

theorem CsOk_replace {f f' : DumperState} {t : List DumperState}
    (h : CsOk (f :: t)) (hc : containerFrame f' = true)
    (hm : isMapFrame f = true → isMapFrame f' = true) : CsOk (f' :: t) := by
  cases h with
  | single _ hf => exact CsOk.single f' (hm hf)
  | cons _ g t2 _ hg hrest => exact CsOk.cons f' g t2 hc hg hrest

theorem CsOk_cons_inv {f g : DumperState} {t : List DumperState}
    (h : CsOk (f :: g :: t)) : hasValueFrame g = true ∧ CsOk (g :: t) := by
  cases h with
  | cons _ _ _ _ hg hrest => exact ⟨hg, hrest⟩

theorem CsOk_all_container {cs : List DumperState} (h : CsOk cs) :
    ∀ f ∈ cs, containerFrame f = true := by
  induction h with
  | nil => intro f hf; cases hf
  | single g hg =>
    intro f hf
    rw [List.mem_singleton] at hf
    subst hf
    cases f <;> simp_all [isMapFrame, containerFrame]
  | cons g g2 t2 hg hv _ ih =>
    intro f hf
    rcases List.mem_cons.mp hf with rfl | hf2
    · exact hg
    · exact ih f hf2

/-- One successful `emit` preserves the reachable-stack invariant. -/
theorem dumperInv_emit {d : JsonDumper} {e : Event} {d1 : JsonDumper}
    {w : List Write} (hinv : dumperInv d) (h : d.emit e = some (d1, w)) :
    dumperInv d1 := by
  rcases hinv with ⟨hs, hl⟩ | ⟨cs, hs, hl, hok⟩
  · cases e <;>
      simp only [JsonDumper.emit, hs, JsonDumper.emit_comma_if_needed,
        Option.some.injEq, Prod.mk.injEq, reduceCtorEq, reduceIte,
        false_or, or_false, or_self, if_false, ite_false] at h
    case DocumentStart =>
      obtain ⟨h1, h2⟩ := h
      subst h1
      exact Or.inr ⟨[], by simp, by simp [hl], CsOk.nil⟩
  · rcases cs with _ | ⟨f, t⟩
    · simp only [List.nil_append] at hs
      cases e <;>
        simp only [JsonDumper.emit, hs, JsonDumper.emit_comma_if_needed,
          Option.some.injEq, Prod.mk.injEq, reduceCtorEq, reduceIte,
          List.cons.injEq, or_false, false_or, or_true, true_or, or_self,
          if_true, if_false, ite_false, ite_true] at h
      case DocumentEnd =>
        obtain ⟨h1, h2⟩ := h
        subst h1
        exact Or.inl ⟨by simp, by simpa using hl⟩
      case MapStart =>
        obtain ⟨h1, h2⟩ := h
        subst h1
        exact Or.inr ⟨[DumperState.MapInitial], by simp, by simp [hl],
          CsOk.single _ rfl⟩
    · have hcf := CsOk_head hok
      simp only [List.cons_append] at hs
      cases f <;> simp only [containerFrame, reduceCtorEq] at hcf
      all_goals cases e
      all_goals
        simp only [JsonDumper.emit, hs, JsonDumper.emit_comma_if_needed,
          Option.some.injEq, Prod.mk.injEq, reduceCtorEq, reduceIte,
          or_self, or_false, false_or, or_true, true_or, if_true, if_false,
          ite_false, ite_true] at h
      -- DocumentEnd needs a case split on whether more containers remain.
      case MapInitial.DocumentEnd =>
        exfalso
        rcases t with _ | ⟨g, t2⟩
        · simp at h
        · obtain ⟨hg, _⟩ := CsOk_cons_inv hok
          cases g <;> simp_all [hasValueFrame]
      case MapHasKey.DocumentEnd =>
        exfalso
        rcases t with _ | ⟨g, t2⟩
        · simp at h
        · obtain ⟨hg, _⟩ := CsOk_cons_inv hok
          cases g <;> simp_all [hasValueFrame]
      case MapHasValue.DocumentEnd =>
        exfalso
        rcases t with _ | ⟨g, t2⟩
        · simp at h
        · obtain ⟨hg, _⟩ := CsOk_cons_inv hok
          cases g <;> simp_all [hasValueFrame]
      case ListInitial.DocumentEnd =>
        exfalso
        rcases t with _ | ⟨g, t2⟩
        · simp at h
        · obtain ⟨hg, _⟩ := CsOk_cons_inv hok
          cases g <;> simp_all [hasValueFrame]
      case ListHasValue.DocumentEnd =>
        exfalso
        rcases t with _ | ⟨g, t2⟩
        · simp at h
        · obtain ⟨hg, _⟩ := CsOk_cons_inv hok
          cases g <;> simp_all [hasValueFrame]
      -- Container pushes.
      case MapHasKey.MapStart =>
        obtain ⟨h1, h2⟩ := h
        subst h1
        exact Or.inr ⟨DumperState.MapInitial :: DumperState.MapHasValue :: t,
          by simp, by simp [hl], CsOk.cons _ _ _ rfl rfl
            (CsOk_replace hok rfl (fun _ => rfl))⟩
      case ListInitial.MapStart =>
        obtain ⟨h1, h2⟩ := h
        subst h1
        exact Or.inr ⟨DumperState.MapInitial :: DumperState.ListHasValue :: t,
          by simp, by simp [hl], CsOk.cons _ _ _ rfl rfl
            (CsOk_replace hok rfl (fun hm => by simp [isMapFrame] at hm))⟩
      case ListHasValue.MapStart =>
        obtain ⟨h1, h2⟩ := h
        subst h1
        exact Or.inr ⟨DumperState.MapInitial :: DumperState.ListHasValue :: t,
          by simp, by simp [hl], CsOk.cons _ _ _ rfl rfl
            (CsOk_replace hok rfl (fun hm => by simp [isMapFrame] at hm))⟩
      case MapHasKey.ListStart =>
        obtain ⟨h1, h2⟩ := h
        subst h1
        exact Or.inr ⟨DumperState.ListInitial :: DumperState.MapHasValue :: t,
          by simp, by simp [hl], CsOk.cons _ _ _ rfl rfl
            (CsOk_replace hok rfl (fun _ => rfl))⟩
      case ListInitial.ListStart =>
        obtain ⟨h1, h2⟩ := h
        subst h1
        exact Or.inr ⟨DumperState.ListInitial :: DumperState.ListHasValue :: t,
          by simp, by simp [hl], CsOk.cons _ _ _ rfl rfl
            (CsOk_replace hok rfl (fun hm => by simp [isMapFrame] at hm))⟩
      case ListHasValue.ListStart =>
        obtain ⟨h1, h2⟩ := h
        subst h1
        exact Or.inr ⟨DumperState.ListInitial :: DumperState.ListHasValue :: t,
          by simp, by simp [hl], CsOk.cons _ _ _ rfl rfl
            (CsOk_replace hok rfl (fun hm => by simp [isMapFrame] at hm))⟩
      -- Container pops.
      case MapInitial.MapEnd =>
        obtain ⟨h1, h2⟩ := h
        subst h1
        exact Or.inr ⟨t, by simp, by simp [hl], CsOk_tail hok⟩
      case MapHasValue.MapEnd =>
        obtain ⟨h1, h2⟩ := h
        subst h1
        exact Or.inr ⟨t, by simp, by simp [hl], CsOk_tail hok⟩
      case ListInitial.ListEnd =>
        split at h
        · exact absurd h (by simp)
        · simp only [Option.some.injEq, Prod.mk.injEq] at h
          obtain ⟨h1, h2⟩ := h
          subst h1
          exact Or.inr ⟨t, by simp, by simp [hl], CsOk_tail hok⟩
      case ListHasValue.ListEnd =>
        split at h
        · exact absurd h (by simp)
        · simp only [Option.some.injEq, Prod.mk.injEq] at h
          obtain ⟨h1, h2⟩ := h
          subst h1
          exact Or.inr ⟨t, by simp, by simp [hl], CsOk_tail hok⟩
      -- Key and literal transitions within the top frame.
      case MapInitial.MapKey =>
        obtain ⟨h1, h2⟩ := h
        subst h1
        exact Or.inr ⟨DumperState.MapHasKey :: t, by simp, by simp [hl],
          CsOk_replace hok rfl (fun _ => rfl)⟩
      case MapHasValue.MapKey =>
        obtain ⟨h1, h2⟩ := h
        subst h1
        exact Or.inr ⟨DumperState.MapHasKey :: t, by simp, by simp [hl],
          CsOk_replace hok rfl (fun _ => rfl)⟩
      case MapHasKey.Literal =>
        obtain ⟨h1, h2⟩ := h
        subst h1
        exact Or.inr ⟨DumperState.MapHasValue :: t, by simp, by simp [hl],
          CsOk_replace hok rfl (fun _ => rfl)⟩
      case ListInitial.Literal =>
        obtain ⟨h1, h2⟩ := h
        subst h1
        exact Or.inr ⟨DumperState.ListHasValue :: t, by simp, by simp [hl],
          CsOk_replace hok rfl (fun hm => by simp [isMapFrame] at hm)⟩
      case ListHasValue.Literal =>
        obtain ⟨h1, h2⟩ := h
        subst h1
        exact Or.inr ⟨DumperState.ListHasValue :: t, by simp [hs], by simp [hl],
          CsOk_replace hok rfl (fun hm => by simp [isMapFrame] at hm)⟩

/-- A whole successful run preserves the invariant. -/
theorem dumperInv_runEmit {d : JsonDumper} {evs : List Event}
    {d2 : JsonDumper} {w : List Write} (hinv : dumperInv d)
    (h : runEmit d evs = some (d2, w)) : dumperInv d2 := by
  induction evs generalizing d w with
  | nil =>
    simp only [runEmit, Option.some.injEq, Prod.mk.injEq] at h
    exact h.1 ▸ hinv
  | cons e es ih =>
    simp only [runEmit] at h
    cases he : d.emit e with
    | none =>
      simp only [he] at h
      exact Option.noConfusion h
    | some p =>
      obtain ⟨da, wa⟩ := p
      simp only [he] at h
      cases hr : runEmit da es with
      | none =>
        simp only [hr] at h
        exact Option.noConfusion h
      | some q =>
        obtain ⟨db, wb⟩ := q
        simp only [hr, Option.some.injEq, Prod.mk.injEq] at h
        obtain ⟨h1, -⟩ := h
        subst h1
        exact ih (dumperInv_emit hinv he) hr

/-- The fresh dumper satisfies the invariant. -/
theorem dumperInv_new : dumperInv JsonDumper.new :=
  Or.inl ⟨rfl, rfl⟩

/-- C10 (confirmed).  On a fresh dumper and after every sequence of
successful emits, `indentation_level` equals the number of container
frames (`MapInitial`, `MapHasKey`, `MapHasValue`, `ListInitial`,
`ListHasValue`) on the state stack; and one further successful emit
keeps the two in step. -/
theorem c10_indentation_matches_containers (evs : List Event)
    (d : JsonDumper) (w : List Write)
    (h : runEmit JsonDumper.new evs = some (d, w)) :
    d.indentation_level = d.state.countP containerFrame ∧
    ∀ e d2 w2, d.emit e = some (d2, w2) →
      d2.indentation_level = d2.state.countP containerFrame := by
  have key : ∀ d' : JsonDumper, dumperInv d' →
      d'.indentation_level = d'.state.countP containerFrame := by
    intro d' hinv
    rcases hinv with ⟨hs, hl⟩ | ⟨cs, hs, hl, hok⟩
    · rw [hs, hl]
      rfl
    · rw [hs, hl, List.countP_append]
      have h1 : cs.countP containerFrame = cs.length :=
        List.countP_eq_length.mpr (CsOk_all_container hok)
      rw [h1]
      rfl
  have hinv := dumperInv_runEmit dumperInv_new h
  exact ⟨key d hinv, fun e d2 w2 h2 => key d2 (dumperInv_emit hinv h2)⟩

/-- Witness for C10 after the concrete prefix
`[DocumentStart, MapStart, MapKey "a", ListStart]`. -/
theorem c10_indentation_matches_containers_witness :
    (2 : Nat) = ([DumperState.ListInitial, DumperState.MapHasValue,
      DumperState.WantMapping, DumperState.Initial] : List DumperState).countP
        containerFrame :=
  (c10_indentation_matches_containers
    [Event.DocumentStart, Event.MapStart, Event.MapKey (Value.string ['a']),
     Event.ListStart]
    { indentation_level := 2,
      state := [DumperState.ListInitial, DumperState.MapHasValue,
                DumperState.WantMapping, DumperState.Initial] }
    [(3, ['\x7b', '\n']), (3, ['\t']), (3, ['"']), (3, ['a']), (3, ['"']),
     (3, [':', ' ']), (3, ['[', '\n'])]
    (by decide)).1

/-- C2 (corrected).  `emit(ListEnd)` decides the re-indentation from the
frame BELOW the popped list frame (`emit_indent_if_necessary` runs after
the pop): a newline plus indentation is written before `]` iff that
parent frame is has-value.  In every state reachable by successful
emits, the parent of a list frame is always has-value (it was marked so
by the `ListStart` that opened the list), so a newline plus indentation
is written before `]` unconditionally — whether or not the list being
closed contained any element. -/
theorem c2_list_end_always_reindents (evs : List Event) (d : JsonDumper)
    (w0 : List Write) (h : runEmit JsonDumper.new evs = some (d, w0))
    (d2 : JsonDumper) (w : List Write)
    (h2 : d.emit Event.ListEnd = some (d2, w)) :
    w = (d2.state.length, ['\n']) :: (d2.indent ++ [(d2.state.length, [']'])]) := by
  have hinv := dumperInv_runEmit dumperInv_new h
  rcases hinv with ⟨hs, hl⟩ | ⟨cs, hs, hl, hok⟩
  · simp [JsonDumper.emit, hs] at h2
  · rcases cs with _ | ⟨f, t⟩
    · simp [JsonDumper.emit, hs] at h2
    · cases f
      case Initial => exact absurd (CsOk_head hok) (by decide)
      case WantMapping => exact absurd (CsOk_head hok) (by decide)
      case MapInitial => simp [JsonDumper.emit, hs] at h2
      case MapHasKey => simp [JsonDumper.emit, hs] at h2
      case MapHasValue => simp [JsonDumper.emit, hs] at h2
      case ListInitial =>
        cases hok with
        | single _ hf => exact absurd hf (by decide)
        | cons _ g t2 _ hg hrest =>
          cases g <;> simp only [hasValueFrame, reduceCtorEq] at hg
          all_goals
            simp only [JsonDumper.emit, hs, List.cons_append, reduceIte,
              true_or, or_true, JsonDumper.emit_indent_if_necessary,
              Option.some.injEq, Prod.mk.injEq] at h2
          all_goals
            obtain ⟨h21, h22⟩ := h2
            subst h21
            simp [← h22]
      case ListHasValue =>
        cases hok with
        | single _ hf => exact absurd hf (by decide)
        | cons _ g t2 _ hg hrest =>
          cases g <;> simp only [hasValueFrame, reduceCtorEq] at hg
          all_goals
            simp only [JsonDumper.emit, hs, List.cons_append, reduceIte,
              true_or, or_true, JsonDumper.emit_indent_if_necessary,
              Option.some.injEq, Prod.mk.injEq] at h2
          all_goals
            obtain ⟨h21, h22⟩ := h2
            subst h21
            simp [← h22]

/-- Witness for C2-corrected: closing the EMPTY list of
`{"a": [ ]}` still writes newline + one tab before `]`. -/
theorem c2_list_end_always_reindents_witness :
    JsonDumper.emit
      { indentation_level := 2,
        state := [DumperState.ListInitial, DumperState.MapHasValue,
                  DumperState.WantMapping, DumperState.Initial] }
      Event.ListEnd = some
        ({ indentation_level := 1,
           state := [DumperState.MapHasValue, DumperState.WantMapping,
                     DumperState.Initial] },
         [(3, ['\n']), (3, ['\t']), (3, [']'])]) ∧
    [(3, ['\n']), (3, ['\t']), (3, [']'])] =
      (({ indentation_level := 1,
          state := [DumperState.MapHasValue, DumperState.WantMapping,
                    DumperState.Initial] } : JsonDumper).state.length, ['\n']) ::
        (({ indentation_level := 1,
            state := [DumperState.MapHasValue, DumperState.WantMapping,
                      DumperState.Initial] } : JsonDumper).indent ++
         [(({ indentation_level := 1,
              state := [DumperState.MapHasValue, DumperState.WantMapping,
                        DumperState.Initial] } : JsonDumper).state.length,
           [']'])]) :=
  ⟨by decide,
   c2_list_end_always_reindents
    [Event.DocumentStart, Event.MapStart, Event.MapKey (Value.string ['a']),
     Event.ListStart]
    { indentation_level := 2,
      state := [DumperState.ListInitial, DumperState.MapHasValue,
                DumperState.WantMapping, DumperState.Initial] }
    [(3, ['\x7b', '\n']), (3, ['\t']), (3, ['"']), (3, ['a']), (3, ['"']),
     (3, [':', ' ']), (3, ['[', '\n'])]
    (by decide)
    { indentation_level := 1,
      state := [DumperState.MapHasValue, DumperState.WantMapping,
                DumperState.Initial] }
    [(3, ['\n']), (3, ['\t']), (3, [']'])]
    (by decide)⟩

/-! ## Separator accounting (claim C4) -/

theorem runEmit_nil (d : JsonDumper) : runEmit d [] = some (d, []) := rfl

theorem runEmit_cons_of {d : JsonDumper} {e : Event} {d1 : JsonDumper}
    {w1 : List Write} {es : List Event} {d2 : JsonDumper} {w2 : List Write}
    (h1 : d.emit e = some (d1, w1)) (h2 : runEmit d1 es = some (d2, w2)) :
    runEmit d (e :: es) = some (d2, w1 ++ w2) := by
  simp [runEmit, h1, h2]

theorem runEmit_append_of {d d1 d2 : JsonDumper} {l1 l2 : List Event}
    {w1 w2 : List Write} (h1 : runEmit d l1 = some (d1, w1))
    (h2 : runEmit d1 l2 = some (d2, w2)) :
    runEmit d (l1 ++ l2) = some (d2, w1 ++ w2) := by
  induction l1 generalizing d w1 with
  | nil =>
    simp only [runEmit, Option.some.injEq, Prod.mk.injEq] at h1
    obtain ⟨ha, hb⟩ := h1
    subst ha
    subst hb
    simpa using h2
  | cons e es ih =>
    rw [List.cons_append]
    simp only [runEmit] at h1
    cases he : d.emit e with
    | none => simp [he] at h1
    | some p =>
      obtain ⟨da, wa⟩ := p
      simp only [he] at h1
      cases hr : runEmit da es with
      | none => simp [hr] at h1
      | some q =>
        obtain ⟨db, wb⟩ := q
        simp only [hr, Option.some.injEq, Prod.mk.injEq] at h1
        obtain ⟨ha, hb⟩ := h1
        subst ha
        subst hb
        have := runEmit_cons_of he (ih hr)
        simpa [List.append_assoc] using this

theorem countSep_nil (lvl : Nat) : countSep lvl [] = 0 := rfl

theorem countSep_append (lvl : Nat) (a b : List Write) :
    countSep lvl (a ++ b) = countSep lvl a + countSep lvl b :=
  List.countP_append _ a b

theorem countSep_cons (lvl : Nat) (w : Write) (ws : List Write) :
    countSep lvl (w :: ws) =
      countSep lvl ws + (if w = (lvl, sepText) then 1 else 0) := by
  simp [countSep, List.countP_cons]

theorem countSep_replicate_tab (lvl mu n : Nat) :
    countSep lvl (List.replicate n (mu, ['\t'])) = 0 := by
  induction n with
  | zero => rfl
  | succ k ih =>
    rw [List.replicate_succ, countSep_cons, ih]
    simp [sepText]

/-- The escaped form of a string never contains a raw newline: the fast
path has no control characters at all, and every fragment of the slow
path is made of backslashes, letters, hex digits, or characters outside
the control range. -/
theorem escape_noNewline (s : List Char) : '\n' ∉ escape_string s := by
  by_cases ha : s.any mustEscapeChar
  · rw [escape_string, if_pos ha]
    intro hmem
    rw [List.mem_flatMap] at hmem
    obtain ⟨c, hc, hfrag⟩ := hmem
    rw [escFragment] at hfrag
    split_ifs at hfrag with h1 h2 h3 h4 h5
    · rcases h1 with rfl | rfl <;> simp_all
    · simp_all
    · simp_all
    · simp_all
    · have hdig : ∀ k, k < 16 → Nat.digitChar k ≠ '\n' := by decide
      simp only [hex4, List.mem_cons, List.mem_singleton] at hfrag
      rcases hfrag with h | h | h | h | h | h | h
      · exact absurd h (by decide)
      · exact absurd h (by decide)
      · exact absurd h.symm (hdig _ (Nat.mod_lt _ (by norm_num)))
      · exact absurd h.symm (hdig _ (Nat.mod_lt _ (by norm_num)))
      · exact absurd h.symm (hdig _ (Nat.mod_lt _ (by norm_num)))
      · exact absurd h.symm (hdig _ (Nat.mod_lt _ (by norm_num)))
      · exact absurd h (List.not_mem_nil _)
    · simp only [List.mem_singleton] at hfrag
      subst hfrag
      exact h5 (by decide)
  · rw [escape_string, if_neg ha]
    intro hmem
    rw [Bool.not_eq_true, List.any_eq_false] at ha
    exact ha '\n' hmem (by decide)

/-- No chunk that `emit_value` writes is ever a separator chunk, as long
as a number's rendering contains no comma. -/
theorem countSep_emit_value (d : JsonDumper) (v : Value)
    (hv : goodScalar v = true) (dd : Nat) :
    countSep dd (d.emit_value v) = 0 := by
  cases v with
  | null =>
    rw [JsonDumper.emit_value, countSep_cons, countSep_nil]
    simp [sepText]
  | boolean b =>
    cases b <;>
      (rw [JsonDumper.emit_value, countSep_cons, countSep_nil]
       simp [sepText])
  | number f =>
    rw [JsonDumper.emit_value, countSep_cons, countSep_nil]
    have hne : f.repr ≠ sepText := by
      intro he
      have : ',' ∉ f.repr := by simpa [goodScalar] using hv
      rw [he] at this
      exact this (by simp [sepText])
    simp [hne]
  | string s =>
    rw [JsonDumper.emit_value, countSep_cons, countSep_cons, countSep_cons,
      countSep_nil]
    have hne : escape_string s ≠ sepText := by
      intro he
      have := escape_noNewline s
      rw [he] at this
      exact this (by simp [sepText])
    simp only [sepText] at hne
    simp [sepText, hne]

/-! Single-step unfoldings of `emit` at each receiver state. -/

theorem emit_lit_mhk (n : Nat) (rest : List DumperState) (v : Value) :
    JsonDumper.emit ⟨n, DumperState.MapHasKey :: rest⟩ (Event.Literal v) =
      some (⟨n, DumperState.MapHasValue :: rest⟩,
        JsonDumper.emit_value ⟨n, DumperState.MapHasValue :: rest⟩ v) := rfl

theorem emit_lit_li (n : Nat) (rest : List DumperState) (v : Value) :
    JsonDumper.emit ⟨n, DumperState.ListInitial :: rest⟩ (Event.Literal v) =
      some (⟨n, DumperState.ListHasValue :: rest⟩,
        List.replicate n (rest.length + 1, ['\t']) ++
          JsonDumper.emit_value ⟨n, DumperState.ListHasValue :: rest⟩ v) := rfl

theorem emit_lit_lhv (n : Nat) (rest : List DumperState) (v : Value) :
    JsonDumper.emit ⟨n, DumperState.ListHasValue :: rest⟩ (Event.Literal v) =
      some (⟨n, DumperState.ListHasValue :: rest⟩,
        ((rest.length + 1, sepText) ::
          List.replicate n (rest.length + 1, ['\t'])) ++
          JsonDumper.emit_value ⟨n, DumperState.ListHasValue :: rest⟩ v) := rfl

theorem emit_mapstart_mhk (n : Nat) (rest : List DumperState) :
    JsonDumper.emit ⟨n, DumperState.MapHasKey :: rest⟩ Event.MapStart =
      some (⟨n + 1, DumperState.MapInitial :: DumperState.MapHasValue :: rest⟩,
        [(rest.length + 2, ['\x7b', '\n'])]) := rfl

theorem emit_mapstart_wm (n : Nat) (rest : List DumperState) :
    JsonDumper.emit ⟨n, DumperState.WantMapping :: rest⟩ Event.MapStart =
      some (⟨n + 1, DumperState.MapInitial :: DumperState.WantMapping :: rest⟩,
        [(rest.length + 2, ['\x7b', '\n'])]) := rfl

theorem emit_mapstart_li (n : Nat) (rest : List DumperState) :
    JsonDumper.emit ⟨n, DumperState.ListInitial :: rest⟩ Event.MapStart =
      some (⟨n + 1, DumperState.MapInitial :: DumperState.ListHasValue :: rest⟩,
        List.replicate n (rest.length + 1, ['\t']) ++
          [(rest.length + 2, ['\x7b', '\n'])]) := rfl

theorem emit_mapstart_lhv (n : Nat) (rest : List DumperState) :
    JsonDumper.emit ⟨n, DumperState.ListHasValue :: rest⟩ Event.MapStart =
      some (⟨n + 1, DumperState.MapInitial :: DumperState.ListHasValue :: rest⟩,
        ((rest.length + 1, sepText) ::
          List.replicate n (rest.length + 1, ['\t'])) ++
          [(rest.length + 2, ['\x7b', '\n'])]) := rfl

theorem emit_liststart_mhk (n : Nat) (rest : List DumperState) :
    JsonDumper.emit ⟨n, DumperState.MapHasKey :: rest⟩ Event.ListStart =
      some (⟨n + 1, DumperState.ListInitial :: DumperState.MapHasValue :: rest⟩,
        [(rest.length + 1, ['[', '\n'])]) := rfl

theorem emit_liststart_li (n : Nat) (rest : List DumperState) :
    JsonDumper.emit ⟨n, DumperState.ListInitial :: rest⟩ Event.ListStart =
      some (⟨n + 1, DumperState.ListInitial :: DumperState.ListHasValue :: rest⟩,
        List.replicate n (rest.length + 1, ['\t']) ++
          [(rest.length + 1, ['[', '\n'])]) := rfl

theorem emit_liststart_lhv (n : Nat) (rest : List DumperState) :
    JsonDumper.emit ⟨n, DumperState.ListHasValue :: rest⟩ Event.ListStart =
      some (⟨n + 1, DumperState.ListInitial :: DumperState.ListHasValue :: rest⟩,
        ((rest.length + 1, sepText) ::
          List.replicate n (rest.length + 1, ['\t'])) ++
          [(rest.length + 1, ['[', '\n'])]) := rfl

theorem emit_mapend_mi (n : Nat) (rest : List DumperState) :
    JsonDumper.emit ⟨n, DumperState.MapInitial :: rest⟩ Event.MapEnd =
      some (⟨n - 1, rest⟩,
        (rest.length, ['\n']) ::
          (List.replicate (n - 1) (rest.length, ['\t']) ++
            [(rest.length, ['\x7d'])])) := rfl

theorem emit_mapend_mhv (n : Nat) (rest : List DumperState) :
    JsonDumper.emit ⟨n, DumperState.MapHasValue :: rest⟩ Event.MapEnd =
      some (⟨n - 1, rest⟩,
        (rest.length, ['\n']) ::
          (List.replicate (n - 1) (rest.length, ['\t']) ++
            [(rest.length, ['\x7d'])])) := rfl

theorem emit_listend_hv (n : Nat) (ltop g : DumperState)
    (rest2 : List DumperState)
    (hl : ltop = DumperState.ListInitial ∨ ltop = DumperState.ListHasValue)
    (hg : g = DumperState.MapHasValue ∨ g = DumperState.ListHasValue) :
    JsonDumper.emit ⟨n, ltop :: g :: rest2⟩ Event.ListEnd =
      some (⟨n - 1, g :: rest2⟩,
        ((rest2.length + 1, ['\n']) ::
          List.replicate (n - 1) (rest2.length + 1, ['\t'])) ++
          [(rest2.length + 1, [']'])]) := by
  rcases hl with rfl | rfl <;> rcases hg with rfl | rfl <;> rfl

theorem emit_mapkey_mi (n : Nat) (rest : List DumperState) (k : Value) :
    JsonDumper.emit ⟨n, DumperState.MapInitial :: rest⟩ (Event.MapKey k) =
      some (⟨n, DumperState.MapHasKey :: rest⟩,
        List.replicate n (rest.length + 1, ['\t']) ++
          JsonDumper.emit_value ⟨n, DumperState.MapHasKey :: rest⟩ k ++
          [(rest.length + 1, [':', ' '])]) := rfl

theorem emit_mapkey_mhv (n : Nat) (rest : List DumperState) (k : Value) :
    JsonDumper.emit ⟨n, DumperState.MapHasValue :: rest⟩ (Event.MapKey k) =
      some (⟨n, DumperState.MapHasKey :: rest⟩,
        ((rest.length + 1, sepText) ::
            List.replicate n (rest.length + 1, ['\t'])) ++
          JsonDumper.emit_value ⟨n, DumperState.MapHasKey :: rest⟩ k ++
          [(rest.length + 1, [':', ' '])]) := rfl

theorem nextRecv_hv {top : DumperState} (htop : receiver top) :
    nextRecv top = DumperState.MapHasValue ∨
    nextRecv top = DumperState.ListHasValue := by
  simp only [receiver] at htop
  rcases htop with rfl | rfl | rfl
  · exact Or.inl rfl
  · exact Or.inr rfl
  · exact Or.inr rfl

theorem countSep_mapend_w (dd mu n : Nat) :
    countSep dd ((mu, ['\n']) ::
      (List.replicate n (mu, ['\t']) ++ [(mu, ['\x7d'])])) = 0 := by
  rw [countSep_cons, countSep_append, countSep_replicate_tab, countSep_cons,
    countSep_nil]
  simp [sepText]

theorem countSep_listend_w (dd mu n : Nat) :
    countSep dd (((mu, ['\n']) :: List.replicate n (mu, ['\t'])) ++
      [(mu, [']'])]) = 0 := by
  rw [countSep_append, countSep_cons, countSep_replicate_tab, countSep_cons,
    countSep_nil]
  simp [sepText]

/-- `emit(Literal v)` from each receiver state: result, separator count,
absence of shallower separators, and the lazily-written leading
separator in the `ListHasValue` case. -/
theorem step_literal (n : Nat) (rest : List DumperState) (top : DumperState)
    (v : Value) (htop : receiver top) (hv : goodScalar v = true) :
    ∃ w1, JsonDumper.emit ⟨n, top :: rest⟩ (Event.Literal v) =
        some (⟨n, nextRecv top :: rest⟩, w1) ∧
      countSep (rest.length + 1) w1 =
        (if top = DumperState.ListHasValue then 1 else 0) ∧
      (∀ dd, dd ≠ rest.length + 1 → countSep dd w1 = 0) ∧
      (top = DumperState.ListHasValue →
        ∃ w2, w1 = (rest.length + 1, sepText) :: w2) := by
  simp only [receiver] at htop
  rcases htop with rfl | rfl | rfl
  · refine ⟨_, emit_lit_mhk n rest v, ?_, ?_, ?_⟩
    · rw [countSep_emit_value _ _ hv]
      simp
    · intro dd hdd
      rw [countSep_emit_value _ _ hv]
    · intro h
      exact absurd h (by decide)
  · refine ⟨_, emit_lit_li n rest v, ?_, ?_, ?_⟩
    · rw [countSep_append, countSep_replicate_tab, countSep_emit_value _ _ hv]
      simp
    · intro dd hdd
      rw [countSep_append, countSep_replicate_tab, countSep_emit_value _ _ hv]
    · intro h
      exact absurd h (by decide)
  · refine ⟨_, emit_lit_lhv n rest v, ?_, ?_, ?_⟩
    · rw [countSep_append, countSep_cons, countSep_replicate_tab,
        countSep_emit_value _ _ hv]
      simp
    · intro dd hdd
      rw [countSep_append, countSep_cons, countSep_replicate_tab,
        countSep_emit_value _ _ hv]
      simp only [Prod.mk.injEq]
      have : ¬(rest.length + 1 = dd) := by omega
      simp [this]
    · intro _
      exact ⟨List.replicate n (rest.length + 1, ['\t']) ++
        JsonDumper.emit_value
          ⟨n, DumperState.ListHasValue :: rest⟩ v, List.cons_append _ _ _⟩

/-- `emit(MapStart)` from each receiver state, and from `WantMapping`
(the state of the document's top-level map, where `emit_comma_if_needed`
writes nothing and the frame below the new map stays `WantMapping`). -/
theorem step_mapstart (n : Nat) (rest : List DumperState)
    (top : DumperState)
    (htop : receiver top ∨ top = DumperState.WantMapping) :
    ∃ w1, JsonDumper.emit ⟨n, top :: rest⟩ Event.MapStart =
        some (⟨n + 1,
          DumperState.MapInitial :: nextRecv top :: rest⟩, w1) ∧
      countSep (rest.length + 1) w1 =
        (if top = DumperState.ListHasValue then 1 else 0) ∧
      (∀ dd, dd ≠ rest.length + 1 → countSep dd w1 = 0) ∧
      (top = DumperState.ListHasValue →
        ∃ w2, w1 = (rest.length + 1, sepText) :: w2) := by
  rcases htop with htop | rfl
  swap
  · refine ⟨_, emit_mapstart_wm n rest, ?_, ?_, ?_⟩
    · rw [countSep_cons, countSep_nil]
      simp [sepText]
    · intro dd hdd
      rw [countSep_cons, countSep_nil]
      simp [sepText]
    · intro h
      exact absurd h (by decide)
  simp only [receiver] at htop
  rcases htop with rfl | rfl | rfl
  · refine ⟨_, emit_mapstart_mhk n rest, ?_, ?_, ?_⟩
    · rw [countSep_cons, countSep_nil]
      simp [sepText]
    · intro dd hdd
      rw [countSep_cons, countSep_nil]
      simp [sepText]
    · intro h
      exact absurd h (by decide)
  · refine ⟨_, emit_mapstart_li n rest, ?_, ?_, ?_⟩
    · rw [countSep_append, countSep_replicate_tab, countSep_cons, countSep_nil]
      simp [sepText]
    · intro dd hdd
      rw [countSep_append, countSep_replicate_tab, countSep_cons, countSep_nil]
      simp [sepText]
    · intro h
      exact absurd h (by decide)
  · refine ⟨_, emit_mapstart_lhv n rest, ?_, ?_, ?_⟩
    · rw [countSep_append, countSep_cons, countSep_replicate_tab,
        countSep_cons, countSep_nil]
      simp [sepText]
    · intro dd hdd
      rw [countSep_append, countSep_cons, countSep_replicate_tab,
        countSep_cons, countSep_nil]
      simp only [Prod.mk.injEq]
      have hne : ¬(rest.length + 1 = dd) := by omega
      simp [sepText, hne]
    · intro _
      exact ⟨List.replicate n (rest.length + 1, ['\t']) ++
        [(rest.length + 2, ['\x7b', '\n'])], List.cons_append _ _ _⟩

/-- `emit(ListStart)` from each receiver state. -/
theorem step_liststart (n : Nat) (rest : List DumperState)
    (top : DumperState) (htop : receiver top) :
    ∃ w1, JsonDumper.emit ⟨n, top :: rest⟩ Event.ListStart =
        some (⟨n + 1,
          DumperState.ListInitial :: nextRecv top :: rest⟩, w1) ∧
      countSep (rest.length + 1) w1 =
        (if top = DumperState.ListHasValue then 1 else 0) ∧
      (∀ dd, dd ≠ rest.length + 1 → countSep dd w1 = 0) ∧
      (top = DumperState.ListHasValue →
        ∃ w2, w1 = (rest.length + 1, sepText) :: w2) := by
  simp only [receiver] at htop
  rcases htop with rfl | rfl | rfl
  · refine ⟨_, emit_liststart_mhk n rest, ?_, ?_, ?_⟩
    · rw [countSep_cons, countSep_nil]
      simp [sepText]
    · intro dd hdd
      rw [countSep_cons, countSep_nil]
      simp [sepText]
    · intro h
      exact absurd h (by decide)
  · refine ⟨_, emit_liststart_li n rest, ?_, ?_, ?_⟩
    · rw [countSep_append, countSep_replicate_tab, countSep_cons, countSep_nil]
      simp [sepText]
    · intro dd hdd
      rw [countSep_append, countSep_replicate_tab, countSep_cons, countSep_nil]
      simp [sepText]
    · intro h
      exact absurd h (by decide)
  · refine ⟨_, emit_liststart_lhv n rest, ?_, ?_, ?_⟩
    · rw [countSep_append, countSep_cons, countSep_replicate_tab,
        countSep_cons, countSep_nil]
      simp [sepText]
    · intro dd hdd
      rw [countSep_append, countSep_cons, countSep_replicate_tab,
        countSep_cons, countSep_nil]
      simp only [Prod.mk.injEq]
      have hne : ¬(rest.length + 1 = dd) := by omega
      simp [sepText, hne]
    · intro _
      exact ⟨List.replicate n (rest.length + 1, ['\t']) ++
        [(rest.length + 1, ['[', '\n'])], List.cons_append _ _ _⟩

/-- `emit(MapKey k)` from the two legal map states. -/
theorem step_mapkey (n : Nat) (rest : List DumperState) (mtop : DumperState)
    (k : Value)
    (hm : mtop = DumperState.MapInitial ∨ mtop = DumperState.MapHasValue)
    (hk : goodScalar k = true) :
    ∃ w1, JsonDumper.emit ⟨n, mtop :: rest⟩ (Event.MapKey k) =
        some (⟨n, DumperState.MapHasKey :: rest⟩, w1) ∧
      countSep (rest.length + 1) w1 =
        (if mtop = DumperState.MapHasValue then 1 else 0) ∧
      (∀ dd, dd ≠ rest.length + 1 → countSep dd w1 = 0) ∧
      (mtop = DumperState.MapHasValue →
        ∃ w2, w1 = (rest.length + 1, sepText) :: w2) := by
  rcases hm with rfl | rfl
  · refine ⟨_, emit_mapkey_mi n rest k, ?_, ?_, ?_⟩
    · rw [countSep_append, countSep_append, countSep_replicate_tab,
        countSep_emit_value _ _ hk, countSep_cons, countSep_nil]
      simp [sepText]
    · intro dd hdd
      rw [countSep_append, countSep_append, countSep_replicate_tab,
        countSep_emit_value _ _ hk, countSep_cons, countSep_nil]
      simp [sepText]
    · intro h
      exact absurd h (by decide)
  · refine ⟨_, emit_mapkey_mhv n rest k, ?_, ?_, ?_⟩
    · rw [countSep_append, countSep_append, countSep_cons,
        countSep_replicate_tab, countSep_emit_value _ _ hk, countSep_cons,
        countSep_nil]
      simp [sepText]
    · intro dd hdd
      rw [countSep_append, countSep_append, countSep_cons,
        countSep_replicate_tab, countSep_emit_value _ _ hk, countSep_cons,
        countSep_nil]
      simp only [Prod.mk.injEq]
      have hne : ¬(rest.length + 1 = dd) := by omega
      simp [sepText, hne]
    · intro _
      refine ⟨(List.replicate n (rest.length + 1, ['\t']) ++
        JsonDumper.emit_value ⟨n, DumperState.MapHasKey :: rest⟩ k) ++
        [(rest.length + 1, [':', ' '])], ?_⟩
      rw [List.cons_append, List.cons_append]

theorem exists_cons_append {α : Type} {a : α} {w1 w2 rest : List α}
    (h : w1 = a :: w2) : ∃ ww, w1 ++ rest = a :: ww :=
  ⟨w2 ++ rest, by rw [h, List.cons_append]⟩

mutual

/-- Processing one complete value from a receiver state: the frame
advances to its has-value successor, exactly one separator is written at
the parent's depth iff the parent already held a value (and then it is
the very first chunk written), and no separator is ever written at a
shallower depth. -/
theorem dumpVal_spec : ∀ (v : JValue) (n : Nat) (rest : List DumperState)
    (top : DumperState), receiver top → goodVal v →
    ∃ w, runEmit ⟨n, top :: rest⟩ (eventsOfVal v) =
        some (⟨n, nextRecv top :: rest⟩, w) ∧
      countSep (rest.length + 1) w =
        (if top = DumperState.ListHasValue then 1 else 0) ∧
      (∀ dd, dd ≤ rest.length → countSep dd w = 0) ∧
      (top = DumperState.ListHasValue →
        ∃ w2, w = (rest.length + 1, sepText) :: w2)
  | JValue.scalar val, n, rest, top, htop, hgood => by
    obtain ⟨w1, hrun1, hc1, hlow1, hlz1⟩ :=
      step_literal n rest top val htop (by simpa [goodVal] using hgood)
    refine ⟨w1 ++ [], ?_, ?_, ?_, ?_⟩
    · simp only [eventsOfVal]
      exact runEmit_cons_of hrun1 (runEmit_nil _)
    · rw [countSep_append, countSep_nil, hc1]
      exact Nat.add_zero _
    · intro dd hdd
      rw [countSep_append, countSep_nil, hlow1 dd (by omega)]
    · intro hlv
      obtain ⟨wl, hw⟩ := hlz1 hlv
      exact exists_cons_append hw
  | JValue.map m, n, rest, top, htop, hgood => by
    have hgm : goodMembers m := by simpa [goodVal] using hgood
    obtain ⟨w1, hrun1, hc1, hlow1, hlz1⟩ :=
      step_mapstart n rest top (Or.inl htop)
    obtain ⟨w2, hrun2, hc2, hlow2⟩ :=
      dumpMembers_spec m (n + 1) (nextRecv top :: rest)
        DumperState.MapInitial (Or.inl rfl) hgm
    have hmend : JsonDumper.emit
        ⟨n + 1, (if membersCount m = 0 then DumperState.MapInitial
          else DumperState.MapHasValue) :: nextRecv top :: rest⟩
        Event.MapEnd =
        some (⟨n, nextRecv top :: rest⟩,
          (rest.length + 1, ['\n']) ::
            (List.replicate n (rest.length + 1, ['\t']) ++
              [(rest.length + 1, ['\x7d'])])) := by
      by_cases hm0 : membersCount m = 0
      · rw [if_pos hm0]
        exact emit_mapend_mi (n + 1) _
      · rw [if_neg hm0]
        exact emit_mapend_mhv (n + 1) _
    refine ⟨w1 ++ (w2 ++ (((rest.length + 1, ['\n']) ::
      (List.replicate n (rest.length + 1, ['\t']) ++
        [(rest.length + 1, ['\x7d'])])) ++ [])), ?_, ?_, ?_, ?_⟩
    · simp only [eventsOfVal]
      exact runEmit_cons_of hrun1
        (runEmit_append_of hrun2 (runEmit_cons_of hmend (runEmit_nil _)))
    · rw [countSep_append, countSep_append, countSep_append, countSep_nil,
        countSep_mapend_w, hc1, hlow2 (rest.length + 1) (by simp)]
      simp
    · intro dd hdd
      rw [countSep_append, countSep_append, countSep_append, countSep_nil,
        countSep_mapend_w, hlow1 dd (by omega),
        hlow2 dd (by simp; omega)]
    · intro hlv
      obtain ⟨wl, hw⟩ := hlz1 hlv
      exact exists_cons_append hw
  | JValue.list l, n, rest, top, htop, hgood => by
    have hgl : goodElems l := by simpa [goodVal] using hgood
    obtain ⟨w1, hrun1, hc1, hlow1, hlz1⟩ := step_liststart n rest top htop
    obtain ⟨w2, hrun2, hc2, hlow2⟩ :=
      dumpElems_spec l (n + 1) (nextRecv top :: rest)
        DumperState.ListInitial (Or.inl rfl) hgl
    have hl' : (if elemsCount l = 0 then DumperState.ListInitial
        else DumperState.ListHasValue) = DumperState.ListInitial ∨
        (if elemsCount l = 0 then DumperState.ListInitial
        else DumperState.ListHasValue) = DumperState.ListHasValue := by
      split
      · exact Or.inl rfl
      · exact Or.inr rfl
    have hlend := emit_listend_hv (n + 1) _ (nextRecv top) rest hl'
      (nextRecv_hv htop)
    refine ⟨w1 ++ (w2 ++ ((((rest.length + 1, ['\n']) ::
      List.replicate n (rest.length + 1, ['\t'])) ++
        [(rest.length + 1, [']'])]) ++ [])), ?_, ?_, ?_, ?_⟩
    · simp only [eventsOfVal]
      exact runEmit_cons_of hrun1
        (runEmit_append_of hrun2 (runEmit_cons_of hlend (runEmit_nil _)))
    · rw [countSep_append, countSep_append, countSep_append, countSep_nil,
        countSep_listend_w, hc1, hlow2 (rest.length + 1) (by simp)]
      simp
    · intro dd hdd
      rw [countSep_append, countSep_append, countSep_append, countSep_nil,
        countSep_listend_w, hlow1 dd (by omega),
        hlow2 dd (by simp; omega)]
    · intro hlv
      obtain ⟨wl, hw⟩ := hlz1 hlv
      exact exists_cons_append hw
termination_by v _ _ _ _ _ => sizeOf v

/-- Processing the key/value entries of a map body from `MapInitial` or
`MapHasValue`: the frame ends `MapHasValue` iff at least one entry was
emitted, and the separators written at the map's own depth number the
entries minus one when the map started empty. -/
theorem dumpMembers_spec : ∀ (m : JMembers) (n : Nat)
    (rest : List DumperState) (mtop : DumperState),
    (mtop = DumperState.MapInitial ∨ mtop = DumperState.MapHasValue) →
    goodMembers m →
    ∃ w, runEmit ⟨n, mtop :: rest⟩ (eventsOfMembers m) =
        some (⟨n, (if membersCount m = 0 then mtop
          else DumperState.MapHasValue) :: rest⟩, w) ∧
      countSep (rest.length + 1) w =
        membersCount m - (if mtop = DumperState.MapInitial then 1 else 0) ∧
      (∀ dd, dd ≤ rest.length → countSep dd w = 0)
  | JMembers.nil, n, rest, mtop, hm, _ => by
    refine ⟨[], ?_, ?_, ?_⟩
    · simp [eventsOfMembers, membersCount, runEmit]
    · simp [countSep_nil, membersCount]
    · intro dd hdd
      rfl
  | JMembers.cons k v m2, n, rest, mtop, hm, hgood => by
    obtain ⟨hk, hv, hm2⟩ : goodScalar k = true ∧ goodVal v ∧ goodMembers m2 := by
      simpa [goodMembers] using hgood
    obtain ⟨w1, hrun1, hc1, hlow1, hlz1⟩ := step_mapkey n rest mtop k hm hk
    obtain ⟨w2, hrun2, hc2, hlow2, -⟩ :=
      dumpVal_spec v n rest DumperState.MapHasKey (Or.inl rfl) hv
    obtain ⟨w3, hrun3, hc3, hlow3⟩ :=
      dumpMembers_spec m2 n rest DumperState.MapHasValue (Or.inr rfl) hm2
    rw [ite_self] at hrun3
    refine ⟨w1 ++ (w2 ++ w3), ?_, ?_, ?_⟩
    · simp only [eventsOfMembers, membersCount, Nat.succ_ne_zero, if_false,
        Nat.add_eq_zero, and_false]
      exact runEmit_cons_of hrun1 (runEmit_append_of hrun2 hrun3)
    · rw [countSep_append, countSep_append, hc1, hc2, hc3]
      rcases hm with rfl | rfl
      · simp only [membersCount, reduceIte, reduceCtorEq]
        omega
      · simp only [membersCount, reduceIte, reduceCtorEq]
        omega
    · intro dd hdd
      rw [countSep_append, countSep_append, hlow1 dd (by omega), hlow2 dd hdd,
        hlow3 dd hdd]
termination_by m _ _ _ _ _ => sizeOf m

/-- Processing the elements of a list body from `ListInitial` or
`ListHasValue`: the frame ends `ListHasValue` iff at least one element
was emitted, and the separators written at the list's own depth number
the elements minus one when the list started empty. -/
theorem dumpElems_spec : ∀ (l : JElems) (n : Nat)
    (rest : List DumperState) (ltop : DumperState),
    (ltop = DumperState.ListInitial ∨ ltop = DumperState.ListHasValue) →
    goodElems l →
    ∃ w, runEmit ⟨n, ltop :: rest⟩ (eventsOfElems l) =
        some (⟨n, (if elemsCount l = 0 then ltop
          else DumperState.ListHasValue) :: rest⟩, w) ∧
      countSep (rest.length + 1) w =
        elemsCount l - (if ltop = DumperState.ListInitial then 1 else 0) ∧
      (∀ dd, dd ≤ rest.length → countSep dd w = 0)
  | JElems.nil, n, rest, ltop, hl, _ => by
    refine ⟨[], ?_, ?_, ?_⟩
    · simp [eventsOfElems, elemsCount, runEmit]
    · simp [countSep_nil, elemsCount]
    · intro dd hdd
      rfl
  | JElems.cons v l2, n, rest, ltop, hl, hgood => by
    obtain ⟨hv, hl2⟩ : goodVal v ∧ goodElems l2 := by
      simpa [goodElems] using hgood
    have hrecv : receiver ltop := by
      rcases hl with rfl | rfl
      · exact Or.inr (Or.inl rfl)
      · exact Or.inr (Or.inr rfl)
    obtain ⟨w1, hrun1, hc1, hlow1, -⟩ := dumpVal_spec v n rest ltop hrecv hv
    obtain ⟨w2, hrun2, hc2, hlow2⟩ :=
      dumpElems_spec l2 n rest DumperState.ListHasValue (Or.inr rfl) hl2
    rw [ite_self] at hrun2
    have hnx : nextRecv ltop = DumperState.ListHasValue := by
      rcases hl with rfl | rfl <;> rfl
    rw [hnx] at hrun1
    refine ⟨w1 ++ w2, ?_, ?_, ?_⟩
    · simp only [eventsOfElems, elemsCount, Nat.succ_ne_zero, if_false,
        Nat.add_eq_zero, and_false]
      exact runEmit_append_of hrun1 hrun2
    · rw [countSep_append, hc1, hc2]
      rcases hl with rfl | rfl
      · simp only [elemsCount, reduceIte, reduceCtorEq]
        omega
      · simp only [elemsCount, reduceIte, reduceCtorEq]
        omega
    · intro dd hdd
      rw [countSep_append, hlow1 dd hdd, hlow2 dd hdd]
termination_by l _ _ _ _ _ => sizeOf l

end

/-- C4 (confirmed).  For every container occurring at a receiver
position of a valid event sequence (any state whose top frame accepts a
value) and holding `N` siblings, the dumper emits exactly `N − 1`
separators at that container's own stack depth (`Nat` subtraction makes
this `0` when `N ≤ 1`); each separator is the two-byte chunk `",\n"`,
and it is written lazily as the very FIRST chunk of the second and
subsequent sibling's processing — immediately before that sibling and
hence never trailing after the last one.  The map clause also covers
`WantMapping`, the state at which the document's top-level map is
emitted in every valid sequence (lists can never occur there: `ListStart`
traps at `WantMapping`, see C1, so `receiver` positions exhaust the list
occurrences of valid sequences).  Numbers are assumed to render without
commas, which holds for every real `f64`. -/
theorem c4_separator_placement (n : Nat) (rest : List DumperState)
    (top : DumperState)
    (htop : receiver top ∨ top = DumperState.WantMapping) :
    (∀ m : JMembers, goodMembers m →
      ∃ w, runEmit ⟨n, top :: rest⟩ (eventsOfVal (JValue.map m)) =
          some (⟨n, nextRecv top :: rest⟩, w) ∧
        countSep (rest.length + 2) w = membersCount m - 1) ∧
    (∀ l : JElems, goodElems l → receiver top →
      ∃ w, runEmit ⟨n, top :: rest⟩ (eventsOfVal (JValue.list l)) =
          some (⟨n, nextRecv top :: rest⟩, w) ∧
        countSep (rest.length + 2) w = elemsCount l - 1) ∧
    (∀ v : JValue, goodVal v → top = DumperState.ListHasValue →
      ∃ w w2, runEmit ⟨n, top :: rest⟩ (eventsOfVal v) =
          some (⟨n, nextRecv top :: rest⟩, w) ∧
        w = (rest.length + 1, sepText) :: w2) ∧
    (∀ k : Value, goodScalar k = true →
      ∃ w w2, JsonDumper.emit ⟨n, DumperState.MapHasValue :: rest⟩
          (Event.MapKey k) =
          some (⟨n, DumperState.MapHasKey :: rest⟩, w) ∧
        w = (rest.length + 1, sepText) :: w2) := by
  refine ⟨?_, ?_, ?_, ?_⟩
  · intro m hgm
    obtain ⟨w1, hrun1, hc1, hlow1, hlz1⟩ := step_mapstart n rest top htop
    obtain ⟨w2, hrun2, hc2, hlow2⟩ :=
      dumpMembers_spec m (n + 1) (nextRecv top :: rest)
        DumperState.MapInitial (Or.inl rfl) hgm
    have hmend : JsonDumper.emit
        ⟨n + 1, (if membersCount m = 0 then DumperState.MapInitial
          else DumperState.MapHasValue) :: nextRecv top :: rest⟩
        Event.MapEnd =
        some (⟨n, nextRecv top :: rest⟩,
          (rest.length + 1, ['\n']) ::
            (List.replicate n (rest.length + 1, ['\t']) ++
              [(rest.length + 1, ['\x7d'])])) := by
      by_cases hm0 : membersCount m = 0
      · rw [if_pos hm0]
        exact emit_mapend_mi (n + 1) _
      · rw [if_neg hm0]
        exact emit_mapend_mhv (n + 1) _
    have hidx : (nextRecv top :: rest).length + 1 = rest.length + 2 := by
      simp
    rw [hidx] at hc2
    simp only [reduceIte] at hc2
    refine ⟨w1 ++ (w2 ++ (((rest.length + 1, ['\n']) ::
      (List.replicate n (rest.length + 1, ['\t']) ++
        [(rest.length + 1, ['\x7d'])])) ++ [])), ?_, ?_⟩
    · simp only [eventsOfVal]
      exact runEmit_cons_of hrun1
        (runEmit_append_of hrun2 (runEmit_cons_of hmend (runEmit_nil _)))
    · rw [countSep_append, countSep_append, countSep_append, countSep_nil,
        countSep_mapend_w, hlow1 (rest.length + 2) (by omega), hc2]
      omega
  · intro l hgl hrecv
    obtain ⟨w1, hrun1, hc1, hlow1, hlz1⟩ := step_liststart n rest top hrecv
    obtain ⟨w2, hrun2, hc2, hlow2⟩ :=
      dumpElems_spec l (n + 1) (nextRecv top :: rest)
        DumperState.ListInitial (Or.inl rfl) hgl
    have hl' : (if elemsCount l = 0 then DumperState.ListInitial
        else DumperState.ListHasValue) = DumperState.ListInitial ∨
        (if elemsCount l = 0 then DumperState.ListInitial
        else DumperState.ListHasValue) = DumperState.ListHasValue := by
      split
      · exact Or.inl rfl
      · exact Or.inr rfl
    have hlend := emit_listend_hv (n + 1) _ (nextRecv top) rest hl'
      (nextRecv_hv hrecv)
    have hidx : (nextRecv top :: rest).length + 1 = rest.length + 2 := by
      simp
    rw [hidx] at hc2
    simp only [reduceIte] at hc2
    refine ⟨w1 ++ (w2 ++ ((((rest.length + 1, ['\n']) ::
      List.replicate n (rest.length + 1, ['\t'])) ++
        [(rest.length + 1, [']'])]) ++ [])), ?_, ?_⟩
    · simp only [eventsOfVal]
      exact runEmit_cons_of hrun1
        (runEmit_append_of hrun2 (runEmit_cons_of hlend (runEmit_nil _)))
    · rw [countSep_append, countSep_append, countSep_append, countSep_nil,
        countSep_listend_w, hlow1 (rest.length + 2) (by omega), hc2]
      omega
  · intro v hgv hlv
    have hrecv : receiver top := Or.inr (Or.inr hlv)
    obtain ⟨w, hrun, -, -, hlz⟩ := dumpVal_spec v n rest top hrecv hgv
    obtain ⟨w2, hw⟩ := hlz hlv
    exact ⟨w, w2, hrun, hw⟩
  · intro k hk
    obtain ⟨w, hrun, -, -, hlz⟩ :=
      step_mapkey n rest DumperState.MapHasValue k (Or.inr rfl) hk
    obtain ⟨w2, hw⟩ := hlz rfl
    exact ⟨w, w2, hrun, hw⟩

/-- Witness for C4: the document's top-level two-entry map (emitted at
`WantMapping` over `[Initial]`, the state right after `DocumentStart` on
a fresh dumper), plus a two-entry map and a two-element list processed
from the concrete receiver state `MapHasKey` over `[WantMapping,
Initial]`, each produce exactly one separator at the container's
depth. -/
theorem c4_separator_placement_witness :
    (∃ w, runEmit ⟨0, [DumperState.WantMapping, DumperState.Initial]⟩
        (eventsOfVal (JValue.map (JMembers.cons (Value.string ['a'])
          (JValue.scalar Value.null) (JMembers.cons (Value.string ['b'])
          (JValue.scalar Value.null) JMembers.nil)))) =
        some (⟨0, [DumperState.WantMapping, DumperState.Initial]⟩, w) ∧
      countSep 3 w = 1) ∧
    (∃ w, runEmit ⟨1, [DumperState.MapHasKey, DumperState.WantMapping,
        DumperState.Initial]⟩
        (eventsOfVal (JValue.map (JMembers.cons (Value.string ['a'])
          (JValue.scalar Value.null) (JMembers.cons (Value.string ['b'])
          (JValue.scalar Value.null) JMembers.nil)))) =
        some (⟨1, [DumperState.MapHasValue, DumperState.WantMapping,
          DumperState.Initial]⟩, w) ∧
      countSep 4 w = 1) ∧
    (∃ w, runEmit ⟨1, [DumperState.MapHasKey, DumperState.WantMapping,
        DumperState.Initial]⟩
        (eventsOfVal (JValue.list (JElems.cons (JValue.scalar Value.null)
          (JElems.cons (JValue.scalar Value.null) JElems.nil)))) =
        some (⟨1, [DumperState.MapHasValue, DumperState.WantMapping,
          DumperState.Initial]⟩, w) ∧
      countSep 4 w = 1) := by
  refine ⟨?_, ?_, ?_⟩
  · exact (c4_separator_placement 0 [DumperState.Initial]
      DumperState.WantMapping (Or.inr rfl)).1
      (JMembers.cons (Value.string ['a']) (JValue.scalar Value.null)
        (JMembers.cons (Value.string ['b']) (JValue.scalar Value.null)
          JMembers.nil))
      (by simp [goodMembers, goodVal, goodScalar])
  · exact (c4_separator_placement 1
      [DumperState.WantMapping, DumperState.Initial] DumperState.MapHasKey
      (Or.inl (Or.inl rfl))).1
      (JMembers.cons (Value.string ['a']) (JValue.scalar Value.null)
        (JMembers.cons (Value.string ['b']) (JValue.scalar Value.null)
          JMembers.nil))
      (by simp [goodMembers, goodVal, goodScalar])
  · exact (c4_separator_placement 1
      [DumperState.WantMapping, DumperState.Initial] DumperState.MapHasKey
      (Or.inl (Or.inl rfl))).2.1
      (JElems.cons (JValue.scalar Value.null)
        (JElems.cons (JValue.scalar Value.null) JElems.nil))
      (by simp [goodElems, goodVal, goodScalar])
      (Or.inl rfl)

end Loadum
